import Mathlib

/-!
Verification of the SUNAT file finder / processor core.

This file gives a shallow embedding of the repository's core modules
(`src/core/file_finder.py`, `src/core/file_processor.py`, and the packaging
endpoint of `src/api/main.py`) and proves the specification claims about them.

Modelling conventions:
* Byte strings are modelled by the inductive type `Bytes`: a byte string either
  fails to parse as a ZIP archive (`Bytes.raw`) or parses as an archive with an
  ordered entry list (`Bytes.zip`).  This captures exactly the distinction the
  code observes through `zipfile.BadZipFile`.
* Paths are POSIX style (`os.sep = "/"`); `os.path.isabs` is "starts with /".
* Character semantics are ASCII, matching the filename grammars in the
  pattern registry (all patterns consist of ASCII literals and classes).
* String manipulation is implemented over `String.data` (`List Char`) so that
  every definition evaluates by kernel reduction.
-/

/-! ### ASCII case model (Python `str.lower`, `re.IGNORECASE`) -/

/-- ASCII lower-casing of one character, as `str.lower` acts on ASCII. -/
def toLowerM (c : Char) : Char :=
  if 65 ≤ c.toNat ∧ c.toNat ≤ 90 then Char.ofNat (c.toNat + 32) else c

/-- ASCII lower-casing of a string (Python `str.lower`). -/
def lowerStr (s : String) : String :=
  String.mk (s.data.map toLowerM)

/-- Case-folded code point, used for case-insensitive comparison. -/
def foldNat (c : Char) : Nat :=
  if 65 ≤ c.toNat ∧ c.toNat ≤ 90 then c.toNat + 32 else c.toNat

/-- Case-insensitive character equality (`re.IGNORECASE` on ASCII). -/
def ciEq (a b : Char) : Bool :=
  foldNat a == foldNat b

/-- The regex class `[0-9]` (`\d` on ASCII input). -/
def isDigitC (c : Char) : Bool :=
  decide (48 ≤ c.toNat ∧ c.toNat ≤ 57)

/-- The regex class `[A-Z]` under `re.IGNORECASE`: any ASCII letter. -/
def isAlphaC (c : Char) : Bool :=
  decide ((65 ≤ c.toNat ∧ c.toNat ≤ 90) ∨ (97 ≤ c.toNat ∧ c.toNat ≤ 122))

/-- The regex class `[A-Z0-9]` under `re.IGNORECASE`. -/
def isAlnumC (c : Char) : Bool :=
  isAlphaC c || isDigitC c

theorem toNat_ofNat_letter (n : Nat) (h1 : 65 ≤ n) (h2 : n ≤ 90) :
    (Char.ofNat (n + 32)).toNat = n + 32 := by
  interval_cases n <;> decide

theorem toNat_toLowerM (c : Char) :
    (toLowerM c).toNat = if 65 ≤ c.toNat ∧ c.toNat ≤ 90 then c.toNat + 32 else c.toNat := by
  unfold toLowerM
  by_cases h : 65 ≤ c.toNat ∧ c.toNat ≤ 90
  · simp only [h, if_true]
    exact toNat_ofNat_letter c.toNat h.1 h.2
  · simp only [h, if_false]

theorem foldNat_toLowerM (c : Char) : foldNat (toLowerM c) = foldNat c := by
  unfold foldNat
  rw [toNat_toLowerM]
  split_ifs <;> omega

theorem ciEq_toLowerM (a c : Char) : ciEq a (toLowerM c) = ciEq a c := by
  unfold ciEq
  rw [foldNat_toLowerM]

theorem isDigitC_toLowerM (c : Char) : isDigitC (toLowerM c) = isDigitC c := by
  unfold isDigitC
  rw [toNat_toLowerM]
  by_cases h : 65 ≤ c.toNat ∧ c.toNat ≤ 90
  · rw [if_pos h, decide_eq_decide]
    omega
  · rw [if_neg h]

theorem isAlphaC_toLowerM (c : Char) : isAlphaC (toLowerM c) = isAlphaC c := by
  unfold isAlphaC
  rw [toNat_toLowerM]
  by_cases h : 65 ≤ c.toNat ∧ c.toNat ≤ 90
  · rw [if_pos h, decide_eq_decide]
    omega
  · rw [if_neg h]

theorem isAlnumC_toLowerM (c : Char) : isAlnumC (toLowerM c) = isAlnumC c := by
  unfold isAlnumC
  rw [isAlphaC_toLowerM, isDigitC_toLowerM]

/-! ### The pattern language

Each registry regex is a fixed anchored sequence of: case-insensitive
literals, bounded runs of a character class, an unbounded letter run, an
optional 11-digit RUC prefix, and a terminal extension alternation.  In every
registry pattern each bounded class run is followed by a delimiter character
that is outside the class, so the regex engine's greedy matching with
backtracking coincides with maximal-run matching; this is exploited to give a
deterministic matcher. -/

inductive CClass where
  | digit
  | alnum
  | alpha
deriving DecidableEq, Repr

def classFn : CClass → Char → Bool
  | .digit => isDigitC
  | .alnum => isAlnumC
  | .alpha => isAlphaC

inductive Tok where
  /-- Uncaptured case-insensitive literal. -/
  | lit (s : String)
  /-- Captured case-insensitive literal, e.g. `(01)`, `(RHE)`. -/
  | grpLit (s : String)
  /-- Captured bounded class run, e.g. `(\d{11})`, `([A-Z0-9]{12,17})`. -/
  | grp (cl : CClass) (lo hi : Nat)
  /-- Uncaptured `[A-Z]+` (case-insensitive). -/
  | letters
  /-- Optional uncaptured `(?:\d{11}-)?` prefix.  If the input starts with
  eleven digits followed by `-`, the regex commits to the prefix; the
  prefix-free continuation (`01`/`03`/`07`/`08`/`RHE` followed by `-`) cannot
  match at position 0 of an 11-digit run, so no backtracking is observable. -/
  | optRucPrefix
  /-- Captured terminal alternation, e.g. `(pdf|xml)`.  The alternative
  lists used in the registry are pairwise non-prefix (case-insensitively),
  so at most one alternative can match at a given position and committing to
  the first prefix match is equivalent to the regex's backtracking. -/
  | grpAlt (alts : List String)
deriving DecidableEq, Repr

/-- Consume a case-insensitive literal, returning the rest of the input. -/
def stripCI : List Char → List Char → Option (List Char)
  | [], cs => some cs
  | _ :: _, [] => none
  | p :: ps, c :: cs => if ciEq p c then stripCI ps cs else none

/-- Consume a case-insensitive literal, returning the consumed input text
(original case, as a regex capture does) and the rest. -/
def captureCI : List Char → List Char → Option (List Char × List Char)
  | [], cs => some ([], cs)
  | _ :: _, [] => none
  | p :: ps, c :: cs =>
    if ciEq p c then (captureCI ps cs).map (fun r => (c :: r.1, r.2)) else none

/-- First alternative that matches as a (case-insensitive) prefix. -/
def findAlt (alts : List String) (cs : List Char) : Option (List Char × List Char) :=
  match alts with
  | [] => none
  | a :: rest =>
    match captureCI a.data cs with
    | some r => some r
    | none => findAlt rest cs

/-- Run an anchored token sequence over the whole input, producing the list
of captured groups on success. -/
def runToks : List Tok → List Char → Option (List (List Char))
  | [], [] => some []
  | [], _ :: _ => none
  | Tok.lit s :: ts, cs => (stripCI s.data cs).bind (runToks ts)
  | Tok.grpLit s :: ts, cs =>
    (captureCI s.data cs).bind (fun r => (runToks ts r.2).map (r.1 :: ·))
  | Tok.grp cl lo hi :: ts, cs =>
    let g := cs.takeWhile (classFn cl)
    if lo ≤ g.length ∧ g.length ≤ hi then
      (runToks ts (cs.dropWhile (classFn cl))).map (g :: ·)
    else none
  | Tok.letters :: ts, cs =>
    let g := cs.takeWhile (classFn .alpha)
    if 1 ≤ g.length then runToks ts (cs.dropWhile (classFn .alpha)) else none
  | Tok.optRucPrefix :: ts, cs =>
    match cs.drop 11 with
    | c :: _ =>
      if (cs.take 11).length = 11 ∧ (cs.take 11).all isDigitC ∧ ciEq '-' c then
        runToks ts (cs.drop 12)
      else runToks ts cs
    | [] => runToks ts cs
  | Tok.grpAlt alts :: ts, cs =>
    match findAlt alts cs with
    | some (g, rest) => (runToks ts rest).map (g :: ·)
    | none => none

/-! ### The pattern registry (`PATRONES_ESTRUCTURADOS`) -/

/-- The fixed, ordered registry of SUNAT filename grammars: for each entry,
the document type tag, the anchored pattern, and the capture field names. -/
def PATRONES_ESTRUCTURADOS : List (String × List Tok × List String) :=
  [ ("guia_remision",
      [Tok.grp .digit 11 11, Tok.lit "-09-", Tok.grp .alnum 4 4, Tok.lit "-",
       Tok.grp .digit 1 8, Tok.lit ".", Tok.grpAlt ["pdf", "xml"]],
      ["ruc", "serie", "correlativo", "ext"]),
    ("reporte_planilla_zip",
      [Tok.grp .digit 11 11, Tok.lit "_", Tok.letters, Tok.lit "_",
       Tok.grp .digit 8 8, Tok.lit ".", Tok.grpAlt ["zip"]],
      ["ruc", "periodo", "ext"]),
    ("declaraciones_pagos",
      [Tok.lit "DetalleDeclaraciones_", Tok.grp .digit 11 11, Tok.lit "_",
       Tok.grp .digit 14 14, Tok.lit ".", Tok.grpAlt ["xlsx"]],
      ["ruc", "timestamp", "ext"]),
    ("ficha_ruc",
      [Tok.lit "reporteec_ficharuc_", Tok.grp .digit 11 11, Tok.lit "_",
       Tok.grp .digit 14 14, Tok.lit ".", Tok.grpAlt ["pdf"]],
      ["ruc", "timestamp", "ext"]),
    ("ingreso_recaudacion",
      [Tok.lit "ridetrac_", Tok.grp .digit 11 11, Tok.lit "_",
       Tok.grp .digit 13 13, Tok.lit "_", Tok.grp .digit 14 14, Tok.lit "_",
       Tok.grp .digit 9 9, Tok.lit ".", Tok.grpAlt ["pdf"]],
      ["ruc", "num_operacion", "timestamp", "id", "ext"]),
    ("liberacion_fondos",
      [Tok.lit "rilf_", Tok.grp .digit 11 11, Tok.lit "_",
       Tok.grp .digit 13 13, Tok.lit "_", Tok.grp .digit 14 14, Tok.lit "_",
       Tok.grp .digit 9 9, Tok.lit ".", Tok.grpAlt ["pdf"]],
      ["ruc", "num_operacion", "timestamp", "id", "ext"]),
    ("multa",
      [Tok.lit "rmgen_", Tok.grp .digit 11 11, Tok.lit "_",
       Tok.grp .digit 3 3, Tok.lit "-", Tok.grp .digit 3 3, Tok.lit "-",
       Tok.grp .digit 7 7, Tok.lit "_", Tok.grp .digit 14 14, Tok.lit "_",
       Tok.grp .digit 9 9, Tok.lit ".", Tok.grpAlt ["pdf"]],
      ["ruc", "cod1", "cod2", "num_multa", "timestamp", "id", "ext"]),
    ("notificacion",
      [Tok.lit "constancia_", Tok.grp .digit 14 14, Tok.lit "_",
       Tok.grp .digit 20 20, Tok.lit "_", Tok.grp .digit 13 13, Tok.lit "_",
       Tok.grp .digit 9 9, Tok.lit ".", Tok.grpAlt ["pdf"]],
      ["timestamp", "id_notif", "num_operacion", "id", "ext"]),
    ("valores",
      [Tok.lit "rvalores_", Tok.grp .digit 11 11, Tok.lit "_",
       Tok.grp .alnum 12 17, Tok.lit "_", Tok.grp .digit 14 14, Tok.lit "_",
       Tok.grp .digit 9 9, Tok.lit ".", Tok.grpAlt ["pdf"]],
      ["ruc", "num_valor", "timestamp", "id", "ext"]),
    ("coactiva",
      [Tok.lit "recgen_", Tok.grp .digit 11 11, Tok.lit "_",
       Tok.grp .digit 13 13, Tok.lit "_", Tok.grp .digit 14 14, Tok.lit "_",
       Tok.grp .digit 9 9, Tok.lit ".", Tok.grpAlt ["pdf"]],
      ["ruc", "num_expediente", "timestamp", "id", "ext"]),
    ("baja_oficio",
      [Tok.lit "bod_", Tok.grp .digit 6 6, Tok.lit "_",
       Tok.grp .digit 11 11, Tok.lit "_", Tok.grp .digit 4 4, Tok.lit ".",
       Tok.grpAlt ["pdf"]],
      ["id_baja", "ruc", "periodo", "ext"]),
    ("factura",
      [Tok.optRucPrefix, Tok.grpLit "01", Tok.lit "-", Tok.grp .alnum 4 4,
       Tok.lit "-", Tok.grp .digit 1 8, Tok.lit ".",
       Tok.grpAlt ["xml", "zip", "pdf"]],
      ["tipo_doc", "serie", "correlativo", "ext"]),
    ("boleta",
      [Tok.optRucPrefix, Tok.grpLit "03", Tok.lit "-", Tok.grp .alnum 4 4,
       Tok.lit "-", Tok.grp .digit 1 8, Tok.lit ".",
       Tok.grpAlt ["xml", "zip", "pdf"]],
      ["tipo_doc", "serie", "correlativo", "ext"]),
    ("nota_credito",
      [Tok.optRucPrefix, Tok.grpLit "07", Tok.lit "-", Tok.grp .alnum 4 4,
       Tok.lit "-", Tok.grp .digit 1 8, Tok.lit ".",
       Tok.grpAlt ["xml", "zip", "pdf"]],
      ["tipo_doc", "serie", "correlativo", "ext"]),
    ("nota_debito",
      [Tok.optRucPrefix, Tok.grpLit "08", Tok.lit "-", Tok.grp .alnum 4 4,
       Tok.lit "-", Tok.grp .digit 1 8, Tok.lit ".",
       Tok.grpAlt ["xml", "zip", "pdf"]],
      ["tipo_doc", "serie", "correlativo", "ext"]),
    ("recibo_honorarios",
      [Tok.optRucPrefix, Tok.grpLit "RHE", Tok.lit "-", Tok.grp .alnum 4 4,
       Tok.lit "-", Tok.grp .digit 1 8, Tok.lit ".",
       Tok.grpAlt ["xml", "pdf"]],
      ["tipo_doc", "serie", "correlativo", "ext"]) ]

/-! ### The filename classifier (`_analyze_filename`) -/

/-- The classified-file dictionary built by `_analyze_filename`: the matching
pattern's tag, the bare filename, the composite address, and the captured
groups assigned positionally to the pattern's field names. -/
structure FileInfo where
  classification : String
  filename : String
  path : String
  fields : List (String × String)
deriving DecidableEq, Repr

/-- Iterate a registry in order; return the record for the first pattern
that matches (first match wins). -/
def matchFirst (registry : List (String × List Tok × List String))
    (filename path : String) : Option FileInfo :=
  match registry with
  | [] => none
  | (docType, toks, fields) :: rest =>
    match runToks toks filename.data with
    | some gs => some ⟨docType, filename, path, fields.zip (gs.map String.mk)⟩
    | none => matchFirst rest filename path

/-- `_analyze_filename`: match a bare filename against all known patterns. -/
def analyze_filename (filename path : String) : Option FileInfo :=
  matchFirst PATRONES_ESTRUCTURADOS filename path

-- sanity checks (concrete evaluations of the classifier)
example :
    (analyze_filename "20123456789-09-T001-00000001.pdf" "/r/x.pdf").map
      (·.classification) = some "guia_remision" := by decide
example :
    (analyze_filename "20123456789-09-T001-00000001.pdf" "/r/x.pdf").map
      (·.fields) =
      some [("ruc", "20123456789"), ("serie", "T001"),
            ("correlativo", "00000001"), ("ext", "pdf")] := by decide
example : analyze_filename "notes.txt" "/r/notes.txt" = none := by decide
example :
    (analyze_filename "01-F001-123.XML" "/r/a").map (·.classification) =
      some "factura" := by decide
example :
    (analyze_filename "20123456789-01-F001-123.xml" "/r/a").map
      (·.classification) = some "factura" := by decide
example :
    (analyze_filename "RHE-E001-55.pdf" "/r/a").map (·.classification) =
      some "recibo_honorarios" := by decide
example :
    (analyze_filename "20123456789_PLAME_20240101.zip" "/r/a").map
      (·.classification) = some "reporte_planilla_zip" := by decide

/-! ### Byte strings, filesystems, discovery records -/

mutual
/-- A byte string as observed by `zipfile`: either it fails to parse as a ZIP
archive (`raw`), or it parses as an archive whose entries are listed in
central-directory order as (internal path, is-directory flag, content). -/
inductive Bytes where
  | raw (data : List Nat)
  | zip (entries : ZEntries)
deriving DecidableEq, Repr
/-- The ordered entry list of a parsed ZIP archive. -/
inductive ZEntries where
  | nil
  | cons (name : String) (isDir : Bool) (content : Bytes) (rest : ZEntries)
deriving DecidableEq, Repr
end

mutual
/-- A filesystem node: a regular file with content, or a directory with an
ordered entry list (the order `os.scandir`, and hence `os.walk`, reports). -/
inductive FSNode where
  | file (content : Bytes)
  | dir (entries : FSEntries)
deriving DecidableEq, Repr
/-- The ordered entry list of a directory. -/
inductive FSEntries where
  | nil
  | cons (name : String) (node : FSNode) (rest : FSEntries)
deriving DecidableEq, Repr
end

/-- Induction on a ZIP entry list that also descends into entry contents
that parse as nested archives (the shape of `_analyze_zip_recursively`). -/
theorem zentriesInductNested (P : ZEntries → Prop)
    (hnil : P .nil)
    (hcons : ∀ name isDir content rest,
      (∀ es, content = Bytes.zip es → P es) → P rest →
      P (.cons name isDir content rest)) :
    ∀ es, P es := by
  have main :=
    @Bytes.rec (fun b => ∀ es, b = Bytes.zip es → P es) P
      (fun _ => by intro es h; cases h)
      (fun es ih => by intro es' h; cases h; exact ih)
      hnil
      (fun name isDir content rest ih1 ih2 => hcons name isDir content rest ih1 ih2)
  intro es
  exact @ZEntries.rec (fun b => ∀ es, b = Bytes.zip es → P es) P
    (fun _ => by intro es h; cases h)
    (fun es ih => by intro es' h; cases h; exact ih)
    hnil
    (fun name isDir content rest ih1 ih2 => hcons name isDir content rest ih1 ih2)
    es

/-- Induction on a directory entry list that also descends into
subdirectories (the shape of the `os.walk` subdirectory pass). -/
theorem fsentriesInductNested (P : FSEntries → Prop)
    (hnil : P .nil)
    (hcons : ∀ name node rest,
      (∀ es, node = FSNode.dir es → P es) → P rest →
      P (.cons name node rest)) :
    ∀ es, P es := by
  intro es
  exact @FSEntries.rec (fun n => ∀ es, n = FSNode.dir es → P es) P
    (fun _ => by intro es h; cases h)
    (fun es ih => by intro es' h; cases h; exact ih)
    hnil
    (fun name node rest ih1 ih2 => hcons name node rest ih1 ih2)
    es

/-- One element of the list returned by `find_files`: the classifier
dictionary plus the `status` key (`UNICO` or `DUPLICADO`). -/
structure FoundRecord where
  info : FileInfo
  status : String
deriving DecidableEq, Repr

/-- The bare filename of a found record. -/
def FoundRecord.filename (r : FoundRecord) : String := r.info.filename

/-- The composite address of a found record. -/
def FoundRecord.path (r : FoundRecord) : String := r.info.path

/-- The output of one walker invocation: the records appended to
`found_files`, the final `seen_filenames` set, and the warnings printed for
unreadable archives. -/
structure WalkOut where
  records : List FoundRecord
  seen : List String
  warns : List String
deriving DecidableEq, Repr

/-- `seen_filenames.add` (a Python set add, modelled on a list). -/
def addSeen (seen : List String) (f : String) : List String :=
  if f ∈ seen then seen else f :: seen

/-- `os.path.basename` for `/`-separated internal ZIP paths. -/
def baseNameOf (s : String) : String :=
  String.mk (go s.data [])
where go : List Char → List Char → List Char
  | [], acc => acc.reverse
  | c :: cs, acc => if c = '/' then go cs [] else go cs (c :: acc)

/-- `filename.lower().endswith(".zip")`. -/
def endsWithZip (s : String) : Bool :=
  List.isSuffixOf ".zip".data (s.data.map toLowerM)

/-- Classify one visited name: build the record with its `UNICO`/`DUPLICADO`
status and update the seen set, exactly as both walkers do. -/
def classifyStep (filename fullPath : String) (seen : List String) :
    List FoundRecord × List String :=
  match analyze_filename filename fullPath with
  | some fi =>
    if filename ∈ seen then ([⟨fi, "DUPLICADO"⟩], seen)
    else ([⟨fi, "UNICO"⟩], addSeen seen filename)
  | none => ([], seen)

/-- `_analyze_zip_recursively`: walk a ZIP entry list.  For each non-directory
entry, classify its basename at address `current ++ ":" ++ internal path`;
independently, if the basename ends in `.zip` and the entry was not
classified, open it in memory and recurse (a `BadZipFile` is reported as a
warning and the sibling traversal continues). -/
def analyze_zip_recursively (entries : ZEntries) (currentPath : String)
    (seen : List String) : WalkOut :=
  match entries with
  | .nil => ⟨[], seen, []⟩
  | .cons ename isDir content rest =>
    if isDir then analyze_zip_recursively rest currentPath seen
    else
      let filename := baseNameOf ename
      let nestedPath := currentPath ++ ":" ++ ename
      let fd := analyze_filename filename nestedPath
      let step := classifyStep filename nestedPath seen
      let inner : WalkOut :=
        if endsWithZip filename ∧ fd = none then
          match content with
          | Bytes.zip es => analyze_zip_recursively es nestedPath step.2
          | Bytes.raw _ => ⟨[], step.2, [nestedPath]⟩
        else ⟨[], step.2, []⟩
      let after := analyze_zip_recursively rest currentPath inner.seen
      ⟨step.1 ++ inner.records ++ after.records, after.seen,
       inner.warns ++ after.warns⟩

/-- The files-of-one-directory pass of `os.walk`: classify each regular file
of the current directory (in listed order) and descend into unclassified
`.zip` files on disk (a `BadZipFile` is reported as a warning). -/
def walkFilesPass (entries : FSEntries) (root : String)
    (seen : List String) : WalkOut :=
  match entries with
  | .nil => ⟨[], seen, []⟩
  | .cons _ (FSNode.dir _) rest => walkFilesPass rest root seen
  | .cons name (FSNode.file content) rest =>
    let fullPath := root ++ "/" ++ name
    let fd := analyze_filename name fullPath
    let step := classifyStep name fullPath seen
    let inner : WalkOut :=
      if endsWithZip name ∧ fd = none then
        match content with
        | Bytes.zip es => analyze_zip_recursively es fullPath step.2
        | Bytes.raw _ => ⟨[], step.2, [fullPath]⟩
      else ⟨[], step.2, []⟩
    let after := walkFilesPass rest root inner.seen
    ⟨step.1 ++ inner.records ++ after.records, after.seen,
     inner.warns ++ after.warns⟩

/-- The subdirectory pass of `os.walk` (top-down): after the files of a
directory are processed, each subdirectory is walked in listed order — its
own files first, then its subdirectories. -/
def walkDirsPass (entries : FSEntries) (root : String)
    (seen : List String) : WalkOut :=
  match entries with
  | .nil => ⟨[], seen, []⟩
  | .cons _ (FSNode.file _) rest => walkDirsPass rest root seen
  | .cons name (FSNode.dir es) rest =>
    let subRoot := root ++ "/" ++ name
    let fo := walkFilesPass es subRoot seen
    let so := walkDirsPass es subRoot fo.seen
    let after := walkDirsPass rest root so.seen
    ⟨fo.records ++ so.records ++ after.records, after.seen,
     fo.warns ++ so.warns ++ after.warns⟩

/-- One `os.walk` invocation rooted at a directory: the directory's regular
files are processed first, then its subdirectories recursively. -/
def walkDir (entries : FSEntries) (root : String) (seen : List String) :
    WalkOut :=
  let fo := walkFilesPass entries root seen
  let so := walkDirsPass entries root fo.seen
  ⟨fo.records ++ so.records, so.seen, fo.warns ++ so.warns⟩

/-- `find_files`: recursively find and classify SUNAT files under a search
path.  `node` is what the path resolves to on disk (`none` when the path
does not exist); a non-directory root yields the empty list. -/
def find_files (searchPath : String) (node : Option FSNode) :
    List FoundRecord :=
  match node with
  | some (FSNode.dir entries) => (walkDir entries searchPath []).records
  | _ => []

-- sanity checks for the walker
example :
    (find_files "/r" (some (FSNode.dir
      (.cons "a" (FSNode.dir (.cons "20123456789-09-T001-1.pdf"
          (FSNode.file (Bytes.raw [0])) .nil))
        (.cons "b" (FSNode.dir (.cons "20123456789-09-T001-1.pdf"
          (FSNode.file (Bytes.raw [1])) .nil)) .nil))))).map
      (fun r => (r.path, r.status)) =
      [("/r/a/20123456789-09-T001-1.pdf", "UNICO"),
       ("/r/b/20123456789-09-T001-1.pdf", "DUPLICADO")] := by decide

example :
    (find_files "/r" (some (FSNode.dir
      (.cons "outer.zip" (FSNode.file (Bytes.zip
        (.cons "sub/inner.zip" false (Bytes.zip
          (.cons "01-F001-7.xml" false (Bytes.raw [7]) .nil)) .nil)))
        .nil)))).map
      (fun r => (r.path, r.status)) =
      [("/r/outer.zip:sub/inner.zip:01-F001-7.xml", "UNICO")] := by decide

example :
    (walkDir (.cons "bad.zip" (FSNode.file (Bytes.raw [9]))
      (.cons "RHE-E001-5.pdf" (FSNode.file (Bytes.raw [1])) .nil)) "/r" []).warns =
      ["/r/bad.zip"] := by decide

/-! ### The path resolver (`_parse_zip_path`) -/

/-- Python `str.split(':')`: split on every colon, keeping empty segments. -/
def splitOnColon (cs : List Char) : List (List Char) :=
  go cs []
where go : List Char → List Char → List (List Char)
  | [], acc => [acc.reverse]
  | c :: rest, acc =>
    if c = ':' then acc.reverse :: go rest [] else go rest (c :: acc)

/-- Python `':'.join`. -/
def joinColon : List (List Char) → List Char
  | [] => []
  | [p] => p
  | p :: q :: rest => p ++ ':' :: joinColon (q :: rest)

/-- `_parse_zip_path`: split a composite address into the physical file path
and the ordered in-archive segment names.  Backslashes are first normalised
to `/`; a leading one-letter token whose following segment starts with `/`
is a drive letter and its colon is part of the physical path.  (The final
`'/' → os.sep` conversion is the identity under the POSIX separator.) -/
def parse_zip_path (fullPath : String) : String × List String :=
  let fp := fullPath.data.map (fun c => if c = '\\' then '/' else c)
  match splitOnColon fp with
  | p0 :: p1 :: restParts =>
    if p0.length = 1 ∧ p1.headD ' ' = '/' then
      let rest := (joinColon (p1 :: restParts)).dropWhile (· = '/')
      match splitOnColon rest with
      | r0 :: rs => (String.mk (p0 ++ ':' :: '/' :: r0), rs.map String.mk)
      | [] => (String.mk (p0 ++ [':', '/']), [])
    else (String.mk p0, (p1 :: restParts).map String.mk)
  | [p0] => (String.mk p0, [])
  | [] => ("", [])

-- sanity checks for the path resolver
example : parse_zip_path "/r/a.zip:inner/x.pdf:y.pdf" =
    ("/r/a.zip", ["inner/x.pdf", "y.pdf"]) := by decide
example : parse_zip_path "C:/docs/a.zip:x.pdf" =
    ("C:/docs/a.zip", ["x.pdf"]) := by decide
example : parse_zip_path "C:\\docs\\a.zip:x.pdf" =
    ("C:/docs/a.zip", ["x.pdf"]) := by decide
example : parse_zip_path "/r/plain.pdf" = ("/r/plain.pdf", []) := by decide

/-! ### The extractor (`_extract_from_zip`) -/

/-- `ZipFile.read(name)`: the data of the entry with the given internal
name.  `zipfile` builds its name table front to back, so a later entry with
the same name shadows an earlier one (last write wins). -/
def zipRead : ZEntries → String → Option Bytes
  | .nil, _ => none
  | .cons n _ b rest, name =>
    match zipRead rest name with
    | some r => some r
    | none => if n = name then some b else none

/-- How one `_extract_from_zip` call can fail: `zipfile.BadZipFile` on an
unparseable archive, `KeyError` on a missing entry name, and the `IndexError`
of the unguarded `inner_path_parts[0]` on an empty segment list. -/
inductive ExtractErr where
  | badZip
  | keyErr
  | indexErr
deriving DecidableEq, Repr

/-- `_extract_from_zip`: recursively extract a file's bytes from a ZIP or
nested ZIPs, holding every nesting level in memory. -/
def extract_from_zip : Bytes → List String → Except ExtractErr Bytes
  | Bytes.raw _, _ => .error .badZip
  | Bytes.zip _, [] => .error .indexErr
  | Bytes.zip es, p :: ps =>
    match zipRead es p with
    | none => .error .keyErr
    | some b => if ps.isEmpty then .ok b else extract_from_zip b ps

/-! ### The packager (`create_zip_package`) -/

/-- The physical filesystem seen by the packager: path to byte-string
bindings (first binding wins on lookup). -/
def fsLookup (fs : List (String × Bytes)) (p : String) : Option Bytes :=
  match fs with
  | [] => none
  | (q, b) :: rest => if q = p then some b else fsLookup rest p

/-- `os.remove`. -/
def fsRemove (fs : List (String × Bytes)) (p : String) : List (String × Bytes) :=
  fs.filter (fun e => ¬ e.1 = p)

/-- Writing (or overwriting) one file. -/
def fsSet (fs : List (String × Bytes)) (p : String) (b : Bytes) :
    List (String × Bytes) :=
  (p, b) :: fsRemove fs p

/-- One iteration of the packaging loop over `files_to_package`: resolve the
record's address; with no nesting segments read the physical file directly,
otherwise extract through the nested archives.  `none` means the iteration
only logged (missing file, or a caught extraction error) and wrote nothing. -/
def processOne (fs : List (String × Bytes)) (fi : FileInfo) :
    Option (String × Bytes) :=
  let r := parse_zip_path fi.path
  if r.2.isEmpty then
    match fsLookup fs r.1 with
    | some data => some (fi.filename, data)
    | none => none
  else
    match fsLookup fs r.1 with
    | some data =>
      match extract_from_zip data r.2 with
      | .ok b => some (fi.filename, b)
      | .error _ => none
    | none => none

/-- An observable side effect of `create_zip_package`, in program order:
one `writestr` into the output archive, or one `os.remove` attempt. -/
inductive Event where
  | writeEntry (name : String)
  | removeFile (path : String)
deriving DecidableEq, Repr

/-- The deletion loop: attempt `os.remove` for each target in order; a
failed removal (missing file) is logged and does not stop the loop. -/
def runDeletions (fs : List (String × Bytes)) (targets : List String) :
    List (String × Bytes) × List Event :=
  match targets with
  | [] => (fs, [])
  | p :: ps =>
    let fs' := if (fsLookup fs p).isSome then fsRemove fs p else fs
    let r := runDeletions fs' ps
    (r.1, Event.removeFile p :: r.2)

/-- Turn the flat output entry list into an on-disk archive byte string. -/
def toZEntries : List (String × Bytes) → ZEntries
  | [] => .nil
  | (n, b) :: rest => .cons n false b (toZEntries rest)

/-- The outcome of a successful `create_zip_package` run: the entries
written to the output archive in order, the filesystem afterwards, and the
ordered side-effect trace. -/
structure PkgResult where
  archive : List (String × Bytes)
  fsAfter : List (String × Bytes)
  trace : List Event
deriving DecidableEq, Repr

/-- `create_zip_package`: write each packaged record into the output
archive (entries named by bare filename), then delete the requested
physical files.  `openOk` models whether creating the output archive file
succeeds; on failure the exception propagates before anything is written or
deleted.  (Log-file emission is elided: it writes no archive entry and
deletes nothing.) -/
def create_zip_package (fs : List (String × Bytes)) (files : List FileInfo)
    (toDelete : List String) (outputZipPath : String) (openOk : Bool) :
    Except Unit PkgResult :=
  if openOk then
    let entries := files.filterMap (processOne fs)
    let fs1 := fsSet fs outputZipPath (Bytes.zip (toZEntries entries))
    let del := runDeletions fs1 toDelete
    .ok ⟨entries, del.1,
      entries.map (fun e => Event.writeEntry e.1) ++ del.2⟩
  else .error ()

/-- Read an entry of the output archive back by name (last write wins, as
`zipfile` resolves duplicate names). -/
def archiveRead (entries : List (String × Bytes)) (name : String) :
    Option Bytes :=
  match entries with
  | [] => none
  | (n, b) :: rest =>
    match archiveRead rest name with
    | some r => some r
    | none => if n = name then some b else none

/-! ### The HTTP-facing endpoints (`src/api/main.py`) -/

/-- `os.path.isabs` on POSIX. -/
def isAbsPath (s : String) : Bool :=
  match s.data with
  | c :: _ => c = '/'
  | [] => false

/-- `os.path.isdir` of a resolved path. -/
def isDirOpt : Option FSNode → Bool
  | some (FSNode.dir _) => true
  | _ => false

/-- The response body of a successful `/find` call. -/
structure FindResponse where
  search_path : String
  files_found : Nat
  files : List FoundRecord
deriving DecidableEq, Repr

/-- `find_endpoint`: validate the root, then run discovery.  An invalid or
non-existent root is rejected with HTTP status 400 (the client error the
spec calls `InvalidRootKind`). -/
def find_endpoint (path : String) (node : Option FSNode) :
    Except Nat FindResponse :=
  if ¬ (isAbsPath path = true) ∨ ¬ (isDirOpt node = true) then .error 400
  else .ok ⟨path, (find_files path node).length, find_files path node⟩

/-- The base physical path of a record's address as `process_endpoint`
computes it: `file_info['path'].split(':')[0]`. -/
def baseOf (r : FoundRecord) : String :=
  String.mk (r.path.data.takeWhile (· ≠ ':'))

/-- Step 2 of `process_endpoint`: the records to package (status `UNICO`)
and the set of physical base paths collected from every found record
(modelled as a first-occurrence-ordered deduplicated list). -/
def preparePackaging (allFound : List FoundRecord) :
    List FoundRecord × List String :=
  (allFound.filter (fun r => r.status = "UNICO"),
   allFound.foldl
     (fun acc r => if baseOf r ∈ acc then acc else acc ++ [baseOf r]) [])

/-- The visible outcome of one `/process` call. -/
inductive ProcessResult where
  | httpError (code : Nat)
  | noFilesFound
  | noUniqueFiles
  | done (pkg : PkgResult) (outputZipPath : String) (uniqueCount : Nat)
deriving DecidableEq, Repr

/-- `process_endpoint`: validate both paths, discover, select the `UNICO`
records for packaging, collect every record's base path as a deletion
target, and package (deleting only when requested).  `zipFilename` stands
for the freshly timestamped `consolidado_{timestamp}.zip` name. -/
def process_endpoint (searchPath outputDir : String) (deleteOriginals : Bool)
    (searchNode : Option FSNode) (outDirNode : Option FSNode)
    (fs : List (String × Bytes)) (zipFilename : String) (openOk : Bool) :
    ProcessResult :=
  if ¬ (isAbsPath searchPath = true) ∨ ¬ (isDirOpt searchNode = true) then
    .httpError 400
  else if ¬ (isAbsPath outputDir = true) ∨ ¬ (isDirOpt outDirNode = true) then
    .httpError 400
  else
    let allFound := find_files searchPath searchNode
    if allFound.isEmpty then .noFilesFound
    else
      let prep := preparePackaging allFound
      if prep.1.isEmpty then .noUniqueFiles
      else
        let outputZipPath := outputDir ++ "/" ++ zipFilename
        let filesForDeletion := if deleteOriginals then prep.2 else []
        match create_zip_package fs (prep.1.map (·.info)) filesForDeletion
            outputZipPath openOk with
        | .ok pkg => .done pkg outputZipPath prep.1.length
        | .error _ => .httpError 500

-- sanity check: extraction round-trips through two nesting levels
example :
    extract_from_zip
      (Bytes.zip (.cons "inner.zip" false
        (Bytes.zip (.cons "01-F001-7.xml" false (Bytes.raw [7]) .nil)) .nil))
      ["inner.zip", "01-F001-7.xml"] = .ok (Bytes.raw [7]) := rfl

/-! ### Helper lemmas: colon splitting and joining -/

theorem mk_data (s : String) : String.mk s.data = s := rfl

theorem map_repl_eq_self (l : List Char) (h : ∀ c ∈ l, ¬ c = '\\') :
    l.map (fun c => if c = '\\' then '/' else c) = l := by
  induction l with
  | nil => rfl
  | cons c cs ih =>
    simp only [List.map_cons]
    rw [if_neg (h c (List.mem_cons_self c cs)), ih]
    intro x hx
    exact h x (List.mem_cons_of_mem c hx)

theorem mem_joinColon (parts : List (List Char)) (c : Char)
    (h : c ∈ joinColon parts) : c = ':' ∨ ∃ p ∈ parts, c ∈ p := by
  induction parts with
  | nil => simp [joinColon] at h
  | cons p rest ih =>
    match rest with
    | [] =>
      right
      exact ⟨p, List.mem_cons_self p [], by simpa [joinColon] using h⟩
    | q :: rest' =>
      simp only [joinColon] at h
      rcases List.mem_append.mp h with hp | hq
      · right
        exact ⟨p, List.mem_cons_self p _, hp⟩
      · rcases List.mem_cons.mp hq with hc | hj
        · left
          exact hc
        · rcases ih hj with hc | ⟨p', hp', hcp⟩
          · left
            exact hc
          · right
            exact ⟨p', List.mem_cons_of_mem p hp', hcp⟩

theorem splitOnColon_go_no_colon (cs : List Char)
    (h : ∀ c ∈ cs, ¬ c = ':') :
    ∀ acc, splitOnColon.go cs acc = [acc.reverse ++ cs] := by
  induction cs with
  | nil => intro acc; simp [splitOnColon.go]
  | cons c cs' ih =>
    intro acc
    have hc : ¬ c = ':' := h c (List.mem_cons_self c cs')
    simp only [splitOnColon.go, if_neg hc]
    rw [ih (fun x hx => h x (List.mem_cons_of_mem c hx)) (c :: acc)]
    simp

theorem splitOnColon_go_append (cs rest : List Char)
    (h : ∀ c ∈ cs, ¬ c = ':') :
    ∀ acc, splitOnColon.go (cs ++ ':' :: rest) acc =
      (acc.reverse ++ cs) :: splitOnColon.go rest [] := by
  induction cs with
  | nil =>
    intro acc
    simp [splitOnColon.go]
  | cons c cs' ih =>
    intro acc
    have hc : ¬ c = ':' := h c (List.mem_cons_self c cs')
    simp only [List.cons_append, splitOnColon.go, if_neg hc, List.append_eq]
    rw [ih (fun x hx => h x (List.mem_cons_of_mem c hx)) (c :: acc)]
    simp

theorem splitOnColon_no_colon (cs : List Char) (h : ∀ c ∈ cs, ¬ c = ':') :
    splitOnColon cs = [cs] := by
  unfold splitOnColon
  rw [splitOnColon_go_no_colon cs h []]
  simp

theorem splitOnColon_append (cs rest : List Char)
    (h : ∀ c ∈ cs, ¬ c = ':') :
    splitOnColon (cs ++ ':' :: rest) = cs :: splitOnColon rest := by
  unfold splitOnColon
  rw [splitOnColon_go_append cs rest h []]
  simp

theorem splitOnColon_joinColon (parts : List (List Char))
    (h : ∀ p ∈ parts, ∀ c ∈ p, ¬ c = ':') (hne : parts ≠ []) :
    splitOnColon (joinColon parts) = parts := by
  induction parts with
  | nil => exact absurd rfl hne
  | cons p rest ih =>
    match rest with
    | [] => exact splitOnColon_no_colon p (h p (List.mem_cons_self p []))
    | q :: rest' =>
      simp only [joinColon]
      rw [splitOnColon_append p _ (h p (List.mem_cons_self p _))]
      rw [ih (fun x hx => h x (List.mem_cons_of_mem p hx)) (by simp)]

theorem joinColon_cons (x : List Char) (xs : List (List Char)) :
    joinColon (x :: xs) = x ++ (if xs.isEmpty then [] else ':' :: joinColon xs) := by
  match xs with
  | [] => simp [joinColon]
  | q :: rest => simp [joinColon]

theorem dropWhile_slash_append_colon (a b : List Char) :
    (a ++ ':' :: b).dropWhile (· = '/') =
      a.dropWhile (· = '/') ++ ':' :: b := by
  induction a with
  | nil => simp [List.dropWhile]
  | cons c cs ih =>
    by_cases hc : c = '/'
    · subst hc
      simp only [List.cons_append, List.dropWhile_cons]
      simp [ih]
    · simp [List.dropWhile_cons, hc]

/-- C8.  `_parse_zip_path` splits a composite address on `:` into the
physical path and the ordered nesting segments; a leading one-letter drive
token whose next segment starts with a path separator keeps its colon as
part of the physical path, with all subsequent colons as nesting
boundaries; an address with no nesting colon resolves to zero segments with
the whole string as physical path.  The function is a pure total function
of its input (the embedding is itself the no-I/O, no-exception witness). -/
theorem c8_parse_zip_path_spec :
    (∀ s : String, (∀ c ∈ s.data, ¬ c = ':' ∧ ¬ c = '\\') →
      parse_zip_path s = (s, [])) ∧
    (∀ (base : String) (segs : List String),
      (∀ c ∈ base.data, ¬ c = ':' ∧ ¬ c = '\\') →
      (∀ seg ∈ segs, ∀ c ∈ seg.data, ¬ c = ':' ∧ ¬ c = '\\') →
      (base.data.length = 1 → ((segs.headD "").data.headD ' ') ≠ '/') →
      parse_zip_path (String.mk (joinColon (base.data :: segs.map String.data))) =
        (base, segs)) ∧
    (∀ (d : Char) (p1 : String) (segs : List String),
      ¬ d = ':' → ¬ d = '\\' →
      (∀ c ∈ p1.data, ¬ c = ':' ∧ ¬ c = '\\') →
      (∀ seg ∈ segs, ∀ c ∈ seg.data, ¬ c = ':' ∧ ¬ c = '\\') →
      p1.data.headD ' ' = '/' →
      parse_zip_path
          (String.mk (d :: ':' :: joinColon (p1.data :: segs.map String.data))) =
        (String.mk (d :: ':' :: '/' :: p1.data.dropWhile (· = '/')), segs)) := by
  refine ⟨?_, ?_, ?_⟩
  · intro s h
    simp only [parse_zip_path]
    rw [map_repl_eq_self s.data (fun c hc => (h c hc).2)]
    rw [splitOnColon_no_colon s.data (fun c hc => (h c hc).1)]
  · intro base segs hbase hsegs hnd
    simp only [parse_zip_path]
    have hj : ∀ c ∈ joinColon (base.data :: segs.map String.data), ¬ c = '\\' := by
      intro c hc
      rcases mem_joinColon _ c hc with hcol | ⟨p, hp, hcp⟩
      · subst hcol; decide
      · rcases List.mem_cons.mp hp with hpb | hpm
        · exact (hbase c (hpb ▸ hcp)).2
        · rcases List.mem_map.mp hpm with ⟨seg, hseg, rfl⟩
          exact (hsegs seg hseg c hcp).2
    rw [map_repl_eq_self _ hj]
    rw [splitOnColon_joinColon _ ?hcolfree (by simp)]
    case hcolfree =>
      intro p hp c hc
      rcases List.mem_cons.mp hp with hpb | hpm
      · exact (hbase c (hpb ▸ hc)).1
      · rcases List.mem_map.mp hpm with ⟨seg, hseg, rfl⟩
        exact (hsegs seg hseg c hc).1
    match segs with
    | [] => rfl
    | s1 :: rest =>
      simp only [List.map_cons]
      have hcond : ¬ (base.data.length = 1 ∧ s1.data.headD ' ' = '/') := by
        intro ⟨h1, h2⟩
        exact hnd h1 (by simpa using h2)
      rw [if_neg hcond]
      simp only [mk_data, Prod.mk.injEq, true_and]
      rw [List.map_map]
      simp [Function.comp_def, mk_data]
  · intro d p1 segs hd hdb hp1 hsegs hhead
    simp only [parse_zip_path]
    have hj : ∀ c ∈ joinColon (p1.data :: segs.map String.data), ¬ c = '\\' := by
      intro c hc
      rcases mem_joinColon _ c hc with hcol | ⟨p, hp, hcp⟩
      · subst hcol; decide
      · rcases List.mem_cons.mp hp with hpb | hpm
        · exact (hp1 c (hpb ▸ hcp)).2
        · rcases List.mem_map.mp hpm with ⟨seg, hseg, rfl⟩
          exact (hsegs seg hseg c hcp).2
    have hcolfree : ∀ p ∈ (p1.data :: segs.map String.data), ∀ c ∈ p, ¬ c = ':' := by
      intro p hp c hc
      rcases List.mem_cons.mp hp with hpb | hpm
      · exact (hp1 c (hpb ▸ hc)).1
      · rcases List.mem_map.mp hpm with ⟨seg, hseg, rfl⟩
        exact (hsegs seg hseg c hc).1
    have hmap : (d :: ':' :: joinColon (p1.data :: segs.map String.data)).map
        (fun c => if c = '\\' then '/' else c) =
        [d] ++ ':' :: joinColon (p1.data :: segs.map String.data) := by
      simp only [List.map_cons]
      rw [if_neg hdb, if_neg (show ¬ (':' = '\\') from by decide),
        map_repl_eq_self _ hj]
      rfl
    rw [hmap]
    rw [splitOnColon_append [d] _ (by intro c hc; simp at hc; subst hc; exact hd)]
    rw [splitOnColon_joinColon _ hcolfree (by simp)]
    have hcond : ([d].length = 1 ∧ (p1.data).headD ' ' = '/') := ⟨rfl, hhead⟩
    match hsg : segs with
    | [] =>
      simp only [List.map_nil, if_pos hcond, joinColon]
      have hstr : ∀ c ∈ p1.data.dropWhile (· = '/'), ¬ c = ':' := by
        intro c hc
        exact (hp1 c ((List.dropWhile_sublist _).mem hc)).1
      rw [splitOnColon_no_colon _ hstr]
      rfl
    | s1 :: rest =>
      simp only [List.map_cons, if_pos hcond]
      rw [joinColon_cons p1.data (s1.data :: rest.map String.data)]
      simp only [List.isEmpty_cons, Bool.false_eq_true, if_false]
      rw [dropWhile_slash_append_colon]
      have hstr : ∀ c ∈ p1.data.dropWhile (· = '/'), ¬ c = ':' := by
        intro c hc
        exact (hp1 c ((List.dropWhile_sublist _).mem hc)).1
      rw [splitOnColon_append _ _ hstr]
      rw [splitOnColon_joinColon (s1.data :: rest.map String.data)
        (fun p hp c hc => hcolfree p (List.mem_cons_of_mem _ hp) c hc) (by simp)]
      simp only [List.map_cons, List.map_map, mk_data, Prod.mk.injEq]
      simp [Function.comp_def, mk_data]

/-- Witness for C8 at concrete addresses of each of the three shapes. -/
theorem c8_parse_zip_path_spec_witness :
    parse_zip_path "/r/plain.pdf" = ("/r/plain.pdf", []) ∧
    parse_zip_path "/r/a.zip:inner/x.zip:y.pdf" = ("/r/a.zip", ["inner/x.zip", "y.pdf"]) ∧
    parse_zip_path "C:/docs/a.zip:x.pdf" = ("C:/docs/a.zip", ["x.pdf"]) := by
  refine ⟨c8_parse_zip_path_spec.1 "/r/plain.pdf" (by decide), ?_, ?_⟩
  · have h := c8_parse_zip_path_spec.2.1 "/r/a.zip" ["inner/x.zip", "y.pdf"]
      (by decide) (by decide) (by decide)
    simpa using h
  · have h := c8_parse_zip_path_spec.2.2 'C' "/docs/a.zip" ["x.pdf"]
      (by decide) (by decide) (by decide) (by decide) (by decide)
    simpa using h

/-- C10.  `_extract_from_zip` is only well-defined for a non-empty segment
list: on an empty list it never returns bytes — for a readable archive it
hits the unguarded indexing (`IndexError`) — while with one or more
segments it reads the named entry at each level and returns the bytes of
the final segment; and the packager guards the precondition, reading the
physical file directly when the resolved address has no nesting segments
and calling the extractor only otherwise. -/
theorem c10_extract_empty_segment_safety :
    (∀ b r : Bytes, ¬ extract_from_zip b [] = .ok r) ∧
    (∀ es : ZEntries, extract_from_zip (Bytes.zip es) [] = .error .indexErr) ∧
    (∀ es p, extract_from_zip (Bytes.zip es) [p] =
      (match zipRead es p with
       | some b => .ok b
       | none => .error .keyErr)) ∧
    (∀ es p ps, ¬ ps = [] → extract_from_zip (Bytes.zip es) (p :: ps) =
      (match zipRead es p with
       | some b => extract_from_zip b ps
       | none => .error .keyErr)) ∧
    (∀ fs fi,
      ((parse_zip_path fi.path).2 = [] →
        processOne fs fi =
          (fsLookup fs (parse_zip_path fi.path).1).map (fun d => (fi.filename, d))) ∧
      (¬ (parse_zip_path fi.path).2 = [] →
        processOne fs fi =
          (match fsLookup fs (parse_zip_path fi.path).1 with
           | some d =>
             (match extract_from_zip d (parse_zip_path fi.path).2 with
              | .ok b => some (fi.filename, b)
              | .error _ => none)
           | none => none))) := by
  refine ⟨?_, ?_, ?_, ?_, ?_⟩
  · intro b r h
    cases b <;> simp [extract_from_zip] at h
  · intro es
    rfl
  · intro es p
    cases h : zipRead es p <;> simp [extract_from_zip, h]
  · intro es p ps hne
    cases h : zipRead es p <;>
      simp [extract_from_zip, h, List.isEmpty_iff, hne]
  · intro fs fi
    constructor
    · intro h
      simp only [processOne, h, List.isEmpty_nil, if_true]
      cases hL : fsLookup fs (parse_zip_path fi.path).1 <;> simp [hL]
    · intro h
      have hie : (parse_zip_path fi.path).2.isEmpty = false := by
        simpa [List.isEmpty_iff] using h
      simp only [processOne, hie, Bool.false_eq_true, if_false]

/-- Witness for C10 at concrete archives and records. -/
theorem c10_extract_empty_segment_safety_witness :
    extract_from_zip
        (Bytes.zip (.cons "a.zip" false
          (Bytes.zip (.cons "x.pdf" false (Bytes.raw [1]) .nil)) .nil))
        ["a.zip", "x.pdf"] = .ok (Bytes.raw [1]) ∧
    processOne [("/r/x.pdf", Bytes.raw [2])]
        ⟨"factura", "x.pdf", "/r/x.pdf", []⟩ = some ("x.pdf", Bytes.raw [2]) ∧
    processOne [("/r/a.zip", Bytes.zip (.cons "x.pdf" false (Bytes.raw [3]) .nil))]
        ⟨"factura", "x.pdf", "/r/a.zip:x.pdf", []⟩ = some ("x.pdf", Bytes.raw [3]) := by
  refine ⟨?_, ?_, ?_⟩
  · have h := c10_extract_empty_segment_safety.2.2.2.1
      (ZEntries.cons "a.zip" false
        (Bytes.zip (.cons "x.pdf" false (Bytes.raw [1]) .nil)) .nil)
      "a.zip" ["x.pdf"] (by decide)
    rw [h]
    rfl
  · have h := (c10_extract_empty_segment_safety.2.2.2.2
      [("/r/x.pdf", Bytes.raw [2])] ⟨"factura", "x.pdf", "/r/x.pdf", []⟩).1 (by decide)
    rw [h]
    rfl
  · have h := (c10_extract_empty_segment_safety.2.2.2.2
      [("/r/a.zip", Bytes.zip (.cons "x.pdf" false (Bytes.raw [3]) .nil))]
      ⟨"factura", "x.pdf", "/r/a.zip:x.pdf", []⟩).2 (by decide)
    rw [h]
    rfl

/-! ### C2: deletion is ordered strictly after archive writing -/

theorem runDeletions_events (fs : List (String × Bytes)) (ts : List String) :
    ∀ e ∈ (runDeletions fs ts).2, ∃ p, e = Event.removeFile p := by
  induction ts generalizing fs with
  | nil => intro e he; simp [runDeletions] at he
  | cons p ps ih =>
    intro e he
    simp only [runDeletions, List.mem_cons] at he
    rcases he with rfl | hmem
    · exact ⟨p, rfl⟩
    · exact ih _ e hmem

theorem append_writes_before_removes (W D : List Event)
    (hW : ∀ e ∈ W, ∃ n, e = Event.writeEntry n)
    (hD : ∀ e ∈ D, ∃ p, e = Event.removeFile p) :
    ∀ i j (hi : i < (W ++ D).length) (hj : j < (W ++ D).length),
      (∃ n, (W ++ D).get ⟨i, hi⟩ = Event.writeEntry n) →
      (∃ p, (W ++ D).get ⟨j, hj⟩ = Event.removeFile p) → i < j := by
  intro i j hi hj hwn hrp
  obtain ⟨n, hwn⟩ := hwn
  obtain ⟨p, hrp⟩ := hrp
  simp only [List.get_eq_getElem] at hwn hrp
  have hiW : i < W.length := by
    by_contra hge
    push_neg at hge
    have hlen : i - W.length < D.length := by
      have := hi
      simp only [List.length_append] at this
      omega
    have hmem : (W ++ D)[i] ∈ D := by
      rw [List.getElem_append_right hge]
      exact List.getElem_mem hlen
    obtain ⟨p', hp'⟩ := hD _ hmem
    rw [hwn] at hp'
    cases hp'
  have hjW : W.length ≤ j := by
    by_contra hlt
    push_neg at hlt
    have hmem : (W ++ D)[j] ∈ W := by
      rw [List.getElem_append_left hlt]
      exact List.getElem_mem hlt
    obtain ⟨n', hn'⟩ := hW _ hmem
    rw [hrp] at hn'
    cases hn'
  omega

/-- C2.  In every execution of `create_zip_package`, every `os.remove` on a
deletion target is ordered strictly after every write of an output-archive
entry, and if creating the output archive fails the exception propagates
and no deletion occurs at all. -/
theorem c2_deletion_after_archive :
    (∀ fs files toDelete out res,
      create_zip_package fs files toDelete out true = .ok res →
      ∀ i j (hi : i < res.trace.length) (hj : j < res.trace.length),
        (∃ n, res.trace.get ⟨i, hi⟩ = Event.writeEntry n) →
        (∃ p, res.trace.get ⟨j, hj⟩ = Event.removeFile p) → i < j) ∧
    (∀ fs files toDelete out,
      create_zip_package fs files toDelete out false = .error ()) := by
  constructor
  · intro fs files toDelete out res hok
    simp only [create_zip_package, if_true, Except.ok.injEq] at hok
    subst hok
    exact append_writes_before_removes _ _
      (by
        intro e he
        obtain ⟨a, _, rfl⟩ := List.mem_map.mp he
        exact ⟨a.1, rfl⟩)
      (runDeletions_events _ _)
  · intro fs files toDelete out
    rfl

/-- Witness for C2: a packaging run that writes one entry and removes one
file, with the write strictly first, and the failing-open run. -/
theorem c2_deletion_after_archive_witness :
    (∀ i j (hi : i < 2) (hj : j < 2),
      (∃ n, [Event.writeEntry "x.pdf", Event.removeFile "/r/x.pdf"].get ⟨i, hi⟩ =
        Event.writeEntry n) →
      (∃ p, [Event.writeEntry "x.pdf", Event.removeFile "/r/x.pdf"].get ⟨j, hj⟩ =
        Event.removeFile p) → i < j) ∧
    create_zip_package [("/r/x.pdf", Bytes.raw [2])]
      [⟨"factura", "x.pdf", "/r/x.pdf", []⟩] ["/r/x.pdf"] "/out/c.zip" false =
      .error () := by
  constructor
  · have h := c2_deletion_after_archive.1 [("/r/x.pdf", Bytes.raw [2])]
      [⟨"factura", "x.pdf", "/r/x.pdf", []⟩] ["/r/x.pdf"] "/out/c.zip"
      (PkgResult.mk [("x.pdf", Bytes.raw [2])]
        (fsSet [("/r/x.pdf", Bytes.raw [2])] "/out/c.zip"
          (Bytes.zip (toZEntries [("x.pdf", Bytes.raw [2])])) |>.filter
            (fun e => ¬ e.1 = "/r/x.pdf"))
        [Event.writeEntry "x.pdf", Event.removeFile "/r/x.pdf"]) rfl
    exact h
  · exact c2_deletion_after_archive.2 _ _ _ _

/-! ### C5: root validation of the discovery operation -/

/-- C5.  The discovery operation, as exposed by the `/find` endpoint, fails
with the client error (HTTP 400, the spec's `InvalidRootKind`) whenever the
root does not resolve to an existing directory, and returns an empty result
without error for an existing but empty (absolute) directory.  (The core
`find_files` itself returns `[]` for a non-directory; the failure is raised
by the endpoint's validation.) -/
theorem c5_invalid_root :
    (∀ (path : String) (node : Option FSNode), isDirOpt node = false →
      find_endpoint path node = .error 400) ∧
    (∀ path : String, isAbsPath path = true →
      find_endpoint path (some (FSNode.dir .nil)) = .ok ⟨path, 0, []⟩) := by
  constructor
  · intro path node h
    simp [find_endpoint, h]
  · intro path h
    simp [find_endpoint, h, isDirOpt, find_files, walkDir, walkFilesPass,
      walkDirsPass]

/-- Witness for C5: a missing root is rejected, a file root is rejected,
and an empty directory root yields an empty result. -/
theorem c5_invalid_root_witness :
    find_endpoint "/data" none = .error 400 ∧
    find_endpoint "/data" (some (FSNode.file (Bytes.raw [0]))) = .error 400 ∧
    find_endpoint "/data" (some (FSNode.dir .nil)) = .ok ⟨"/data", 0, []⟩ := by
  refine ⟨c5_invalid_root.1 "/data" none rfl,
    c5_invalid_root.1 "/data" (some (FSNode.file (Bytes.raw [0]))) rfl,
    c5_invalid_root.2 "/data" rfl⟩

/-! ### C1: packaging round-trip -/

theorem processOne_entry_name (fs : List (String × Bytes)) (fi : FileInfo)
    (e : String × Bytes) (h : processOne fs fi = some e) :
    e.1 = fi.filename := by
  simp only [processOne] at h
  split at h
  · split at h
    · injection h with h'
      rw [← h']
    · cases h
  · split at h
    · split at h
      · injection h with h'
        rw [← h']
      · cases h
    · cases h

theorem archiveRead_eq_some (entries : List (String × Bytes)) (n : String)
    (r : Bytes) (h : archiveRead entries n = some r) :
    ∃ e ∈ entries, e.1 = n ∧ e.2 = r := by
  induction entries with
  | nil => cases h
  | cons e rest ih =>
    simp only [archiveRead] at h
    split at h
    · injection h with h'
      subst h'
      obtain ⟨e', he', hn', hv'⟩ := ih (by assumption)
      exact ⟨e', List.mem_cons_of_mem _ he', hn', hv'⟩
    · split at h
      · injection h with h'
        exact ⟨e, List.mem_cons_self _ _, by assumption, h'⟩
      · cases h

theorem archiveRead_eq_none (entries : List (String × Bytes)) (n : String)
    (h : archiveRead entries n = none) :
    ∀ e ∈ entries, ¬ e.1 = n := by
  induction entries with
  | nil => intro e he; cases he
  | cons e rest ih =>
    simp only [archiveRead] at h
    split at h
    · cases h
    · intro e' he'
      rcases List.mem_cons.mp he' with rfl | hm
      · intro hn
        rw [if_pos hn] at h
        cases h
      · exact ih (by assumption) e' hm

theorem archiveRead_last (entries : List (String × Bytes)) (n : String)
    (v : Bytes) (hex : ∃ e ∈ entries, e.1 = n)
    (hall : ∀ e ∈ entries, e.1 = n → e.2 = v) :
    archiveRead entries n = some v := by
  induction entries with
  | nil => obtain ⟨e, he, _⟩ := hex; cases he
  | cons e rest ih =>
    simp only [archiveRead]
    cases hrest : archiveRead rest n with
    | some r =>
      obtain ⟨e', he', hn', hv'⟩ := archiveRead_eq_some rest n r hrest
      have : e'.2 = v := hall e' (List.mem_cons_of_mem _ he') hn'
      simp [← hv', this]
    | none =>
      obtain ⟨e', he', hn'⟩ := hex
      rcases List.mem_cons.mp he' with rfl | hm
      · rw [if_pos hn']
        rw [hall e' (List.mem_cons_self _ _) hn']
      · exact absurd hn' (archiveRead_eq_none rest n hrest e' hm)

/-- C1.  Round-trip: for a `UNIQUE` record sourced at any nesting depth D
(no nesting segments and bytes read from disk when D = 0; bytes produced by
`_extract_from_zip` through the D segments when D ≥ 1), packaging through
`create_zip_package` and reading the entry named by the record's bare
filename back from the output archive yields exactly the source bytes. -/
theorem c1_roundtrip (fs : List (String × Bytes)) (files : List FileInfo)
    (toDelete : List String) (out : String) (fi : FileInfo)
    (orig data : Bytes) (res : PkgResult)
    (hmem : fi ∈ files)
    (huniq : ∀ fj ∈ files, fj.filename = fi.filename → fj = fi)
    (hdisk : fsLookup fs (parse_zip_path fi.path).1 = some data)
    (hsrc : ((parse_zip_path fi.path).2 = [] ∧ orig = data) ∨
            (¬ (parse_zip_path fi.path).2 = [] ∧
             extract_from_zip data (parse_zip_path fi.path).2 = .ok orig))
    (hok : create_zip_package fs files toDelete out true = .ok res) :
    archiveRead res.archive fi.filename = some orig := by
  have harch : res.archive = files.filterMap (processOne fs) := by
    simp only [create_zip_package, if_true, Except.ok.injEq] at hok
    rw [← hok]
  have hfi : processOne fs fi = some (fi.filename, orig) := by
    rcases hsrc with ⟨hnil, rfl⟩ | ⟨hne, hex⟩
    · simp only [processOne, hnil, List.isEmpty_nil, if_true, hdisk]
    · have hie : (parse_zip_path fi.path).2.isEmpty = false := by
        simpa [List.isEmpty_iff] using hne
      simp only [processOne, hie, Bool.false_eq_true, if_false, hdisk, hex]
  rw [harch]
  apply archiveRead_last
  · exact ⟨(fi.filename, orig), List.mem_filterMap.mpr ⟨fi, hmem, hfi⟩, rfl⟩
  · intro e he hn
    obtain ⟨fj, hfj, hpe⟩ := List.mem_filterMap.mp he
    have hname : fj.filename = fi.filename := by
      rw [← processOne_entry_name fs fj e hpe]
      exact hn
    have : fj = fi := huniq fj hfj hname
    subst this
    rw [hfi] at hpe
    injection hpe with h'
    rw [← h']

/-- Witness for C1 at depth 0 and at depth 2. -/
theorem c1_roundtrip_witness :
    archiveRead [("01-F001-7.xml", Bytes.raw [7])] "01-F001-7.xml" =
      some (Bytes.raw [7]) ∧
    archiveRead [("01-F001-8.xml", Bytes.raw [8])] "01-F001-8.xml" =
      some (Bytes.raw [8]) := by
  constructor
  · exact c1_roundtrip [("/r/01-F001-7.xml", Bytes.raw [7])]
      [⟨"factura", "01-F001-7.xml", "/r/01-F001-7.xml", []⟩] [] "/out/c.zip"
      ⟨"factura", "01-F001-7.xml", "/r/01-F001-7.xml", []⟩
      (Bytes.raw [7]) (Bytes.raw [7])
      (PkgResult.mk [("01-F001-7.xml", Bytes.raw [7])]
        [("/out/c.zip", Bytes.zip (.cons "01-F001-7.xml" false (Bytes.raw [7]) .nil)),
         ("/r/01-F001-7.xml", Bytes.raw [7])]
        [Event.writeEntry "01-F001-7.xml"])
      (by decide) (by decide) rfl (Or.inl ⟨by decide, rfl⟩) rfl
  · exact c1_roundtrip
      [("/r/a.zip", Bytes.zip (.cons "inner.zip" false
        (Bytes.zip (.cons "01-F001-8.xml" false (Bytes.raw [8]) .nil)) .nil))]
      [⟨"factura", "01-F001-8.xml", "/r/a.zip:inner.zip:01-F001-8.xml", []⟩]
      [] "/out/c.zip"
      ⟨"factura", "01-F001-8.xml", "/r/a.zip:inner.zip:01-F001-8.xml", []⟩
      (Bytes.raw [8])
      (Bytes.zip (.cons "inner.zip" false
        (Bytes.zip (.cons "01-F001-8.xml" false (Bytes.raw [8]) .nil)) .nil))
      (PkgResult.mk [("01-F001-8.xml", Bytes.raw [8])]
        [("/out/c.zip", Bytes.zip (.cons "01-F001-8.xml" false (Bytes.raw [8]) .nil)),
         ("/r/a.zip", Bytes.zip (.cons "inner.zip" false
           (Bytes.zip (.cons "01-F001-8.xml" false (Bytes.raw [8]) .nil)) .nil))]
        [Event.writeEntry "01-F001-8.xml"])
      (by decide) (by decide) rfl (Or.inr ⟨by decide, rfl⟩) rfl

/-! ### C9: first-match-wins classification, case-insensitively -/

theorem stripCI_map_toLowerM (ps : List Char) :
    ∀ cs, stripCI ps (cs.map toLowerM) =
      (stripCI ps cs).map (List.map toLowerM) := by
  induction ps with
  | nil => intro cs; simp [stripCI]
  | cons p ps' ih =>
    intro cs
    cases cs with
    | nil => simp [stripCI]
    | cons c cs' =>
      simp only [List.map_cons, stripCI, ciEq_toLowerM]
      by_cases h : ciEq p c = true
      · simp [h, ih]
      · simp [h]

theorem captureCI_map_toLowerM (ps : List Char) :
    ∀ cs, captureCI ps (cs.map toLowerM) =
      (captureCI ps cs).map
        (fun r => (r.1.map toLowerM, r.2.map toLowerM)) := by
  induction ps with
  | nil => intro cs; simp [captureCI]
  | cons p ps' ih =>
    intro cs
    cases cs with
    | nil => simp [captureCI]
    | cons c cs' =>
      simp only [List.map_cons, captureCI, ciEq_toLowerM]
      by_cases h : ciEq p c = true
      · cases hcap : captureCI ps' cs' <;> simp [h, ih, hcap]
      · simp [h]

theorem findAlt_map_toLowerM (alts : List String) (cs : List Char) :
    findAlt alts (cs.map toLowerM) =
      (findAlt alts cs).map
        (fun r => (r.1.map toLowerM, r.2.map toLowerM)) := by
  induction alts with
  | nil => simp [findAlt]
  | cons a rest ih =>
    simp only [findAlt, captureCI_map_toLowerM]
    cases hcap : captureCI a.data cs <;> simp [hcap, ih]

theorem classFn_toLowerM (cl : CClass) (c : Char) :
    classFn cl (toLowerM c) = classFn cl c := by
  cases cl <;>
    simp [classFn, isDigitC_toLowerM, isAlphaC_toLowerM, isAlnumC_toLowerM]

theorem classFn_comp_toLowerM (cl : CClass) :
    (classFn cl ∘ toLowerM) = classFn cl :=
  funext (fun c => classFn_toLowerM cl c)

theorem ciEq_dash_toLowerM (c : Char) : ciEq '-' (toLowerM c) = ciEq '-' c :=
  ciEq_toLowerM '-' c

theorem isDigitC_comp_toLowerM : (isDigitC ∘ toLowerM) = isDigitC :=
  funext (fun c => isDigitC_toLowerM c)

theorem runToks_map_toLowerM (toks : List Tok) :
    ∀ cs, runToks toks (cs.map toLowerM) =
      (runToks toks cs).map (List.map (List.map toLowerM)) := by
  induction toks with
  | nil =>
    intro cs
    cases cs <;> simp [runToks]
  | cons t ts ih =>
    intro cs
    cases t with
    | lit s =>
      simp only [runToks, stripCI_map_toLowerM]
      cases hs : stripCI s.data cs <;> simp [hs, ih]
    | grpLit s =>
      simp only [runToks, captureCI_map_toLowerM]
      cases hcap : captureCI s.data cs with
      | none => simp [hcap]
      | some r =>
        obtain ⟨g, rest⟩ := r
        simp only [hcap, Option.map_some']
        rw [show ((some ((g.map toLowerM, rest.map toLowerM) :
          List Char × List Char)).bind
            (fun r => (runToks ts r.2).map (r.1 :: ·))) =
          ((runToks ts (rest.map toLowerM)).map ((g.map toLowerM) :: ·)) from rfl]
        rw [ih rest]
        cases hr : runToks ts rest <;> simp [hr]
    | grp cl lo hi =>
      simp only [runToks]
      rw [List.takeWhile_map, List.dropWhile_map, classFn_comp_toLowerM]
      simp only [List.length_map]
      by_cases hlen : lo ≤ (cs.takeWhile (classFn cl)).length ∧
          (cs.takeWhile (classFn cl)).length ≤ hi
      · rw [if_pos hlen, if_pos hlen, ih]
        cases hr : runToks ts (cs.dropWhile (classFn cl)) <;> simp [hr]
      · rw [if_neg hlen, if_neg hlen]
        rfl
    | letters =>
      simp only [runToks]
      rw [List.takeWhile_map, List.dropWhile_map, classFn_comp_toLowerM]
      simp only [List.length_map]
      by_cases hlen : 1 ≤ (cs.takeWhile (classFn .alpha)).length
      · rw [if_pos hlen, if_pos hlen, ih]
      · rw [if_neg hlen, if_neg hlen]
        rfl
    | optRucPrefix =>
      simp only [runToks]
      rw [← List.map_drop]
      cases hd : cs.drop 11 with
      | nil => simp [ih]
      | cons c rest =>
        simp only [List.map_cons]
        rw [← List.map_take, List.length_map, List.all_map,
          isDigitC_comp_toLowerM, ciEq_dash_toLowerM]
        by_cases hcond : (cs.take 11).length = 11 ∧
            (cs.take 11).all isDigitC = true ∧ ciEq '-' c = true
        · rw [if_pos hcond, if_pos hcond, ← List.map_drop, ih]
        · rw [if_neg hcond, if_neg hcond, ih]
    | grpAlt alts =>
      simp only [runToks, findAlt_map_toLowerM]
      cases hfa : findAlt alts cs with
      | none => simp [hfa]
      | some r =>
        obtain ⟨g, rest⟩ := r
        simp only [hfa, Option.map_some']
        rw [ih rest]
        cases hr : runToks ts rest <;> simp [hr]

theorem matchFirst_eq_none_iff (reg : List (String × List Tok × List String))
    (f p : String) :
    matchFirst reg f p = none ↔ ∀ e ∈ reg, runToks e.2.1 f.data = none := by
  induction reg with
  | nil => simp [matchFirst]
  | cons e rest ih =>
    obtain ⟨dt, toks, flds⟩ := e
    simp only [matchFirst]
    cases hr : runToks toks f.data with
    | some gs =>
      simp only [reduceCtorEq, false_iff]
      intro hall
      have := hall (dt, toks, flds) (List.mem_cons_self _ _)
      rw [hr] at this
      cases this
    | none =>
      rw [ih]
      constructor
      · intro hall e' he'
        rcases List.mem_cons.mp he' with rfl | hm
        · exact hr
        · exact hall e' hm
      · intro hall e' he'
        exact hall e' (List.mem_cons_of_mem _ he')

theorem matchFirst_first_wins (reg : List (String × List Tok × List String))
    (f p : String) :
    ∀ k (hk : k < reg.length) gs,
      (∀ j (hj : j < k),
        runToks (reg.get ⟨j, Nat.lt_trans hj hk⟩).2.1 f.data = none) →
      runToks (reg.get ⟨k, hk⟩).2.1 f.data = some gs →
      matchFirst reg f p =
        some ⟨(reg.get ⟨k, hk⟩).1, f, p,
          (reg.get ⟨k, hk⟩).2.2.zip (gs.map String.mk)⟩ := by
  induction reg with
  | nil =>
    intro k hk
    exact absurd hk (by simp)
  | cons e rest ih =>
    intro k hk gs hearlier hmatch
    obtain ⟨dt, toks, flds⟩ := e
    match k with
    | 0 =>
      simp only [List.get] at hmatch
      simp only [matchFirst, hmatch, List.get]
    | k' + 1 =>
      have h0 : runToks toks f.data = none := by
        have := hearlier 0 (Nat.succ_pos k')
        simpa [List.get] using this
      simp only [matchFirst, h0]
      have hk' : k' < rest.length := Nat.lt_of_succ_lt_succ hk
      have := ih k' hk' gs
        (fun j hj => hearlier (j + 1) (Nat.succ_lt_succ hj)) hmatch
      simpa [List.get] using this

theorem matchFirst_lower_classification
    (reg : List (String × List Tok × List String)) (f p : String) :
    (matchFirst reg (lowerStr f) p).map (·.classification) =
      (matchFirst reg f p).map (·.classification) := by
  have hdata : (lowerStr f).data = f.data.map toLowerM := rfl
  induction reg with
  | nil => simp [matchFirst]
  | cons e rest ih =>
    obtain ⟨dt, toks, flds⟩ := e
    simp only [matchFirst]
    rw [hdata, runToks_map_toLowerM toks f.data]
    cases hr : runToks toks f.data with
    | some gs => simp [hr]
    | none => simpa [hr] using ih

/-- C9.  `_analyze_filename` iterates the Pattern Registry in declaration
order and first match wins: it returns `none` exactly when no pattern
matches (no error), and whenever index k is the first matching pattern the
result is that pattern's record, with the captured groups zipped
positionally with the pattern's declared field names; and matching is
case-insensitive (lower-casing the filename never changes which pattern, if
any, classifies it). -/
theorem c9_first_match_wins :
    (∀ f p : String, analyze_filename f p = none ↔
      ∀ e ∈ PATRONES_ESTRUCTURADOS, runToks e.2.1 f.data = none) ∧
    (∀ f p : String, ∀ k (hk : k < PATRONES_ESTRUCTURADOS.length) gs,
      (∀ j (hj : j < k),
        runToks (PATRONES_ESTRUCTURADOS.get ⟨j, Nat.lt_trans hj hk⟩).2.1
          f.data = none) →
      runToks (PATRONES_ESTRUCTURADOS.get ⟨k, hk⟩).2.1 f.data = some gs →
      analyze_filename f p =
        some ⟨(PATRONES_ESTRUCTURADOS.get ⟨k, hk⟩).1, f, p,
          (PATRONES_ESTRUCTURADOS.get ⟨k, hk⟩).2.2.zip (gs.map String.mk)⟩) ∧
    (∀ f p : String,
      (analyze_filename (lowerStr f) p).map (·.classification) =
        (analyze_filename f p).map (·.classification)) := by
  refine ⟨?_, ?_, ?_⟩
  · intro f p
    exact matchFirst_eq_none_iff PATRONES_ESTRUCTURADOS f p
  · intro f p k hk gs hearlier hmatch
    exact matchFirst_first_wins PATRONES_ESTRUCTURADOS f p k hk gs hearlier hmatch
  · intro f p
    exact matchFirst_lower_classification PATRONES_ESTRUCTURADOS f p

/-- Witness for C9: the registry matches a structured name at the first
matching pattern, rejects an unstructured name entirely, and classifies a
lower-cased name the same as its mixed-case original. -/
theorem c9_first_match_wins_witness :
    (∀ e ∈ PATRONES_ESTRUCTURADOS, runToks e.2.1 "notes.txt".data = none) ∧
    analyze_filename "20123456789-09-T001-1.pdf" "/r/a" =
      some ⟨"guia_remision", "20123456789-09-T001-1.pdf", "/r/a",
        [("ruc", "20123456789"), ("serie", "T001"), ("correlativo", "1"),
         ("ext", "pdf")]⟩ ∧
    (analyze_filename "rhe-e001-55.pdf" "/r/a").map (·.classification) =
      some "recibo_honorarios" := by
  refine ⟨(c9_first_match_wins.1 "notes.txt" "/x").mp (by decide), ?_, ?_⟩
  · have h := c9_first_match_wins.2.1 "20123456789-09-T001-1.pdf" "/r/a" 0
      (by decide)
      [['2','0','1','2','3','4','5','6','7','8','9'], ['T','0','0','1'],
       ['1'], ['p','d','f']]
      (by intro j hj; omega) (by decide)
    rw [h]
    rfl
  · have h := c9_first_match_wins.2.2 "RHE-E001-55.PDF" "/r/a"
    rw [show lowerStr "RHE-E001-55.PDF" = "rhe-e001-55.pdf" from by decide] at h
    rw [h]
    decide

/-! ### C6: when the walker opens and recurses into ZIP entries -/

theorem matchFirst_path (reg : List (String × List Tok × List String))
    (f p : String) (fi : FileInfo) (h : matchFirst reg f p = some fi) :
    fi.path = p := by
  induction reg with
  | nil => cases h
  | cons e rest ih =>
    obtain ⟨dt, toks, flds⟩ := e
    simp only [matchFirst] at h
    split at h
    · injection h with h'
      rw [← h']
    · exact ih h

theorem analyze_filename_path (f p : String) (fi : FileInfo)
    (h : analyze_filename f p = some fi) : fi.path = p :=
  matchFirst_path PATRONES_ESTRUCTURADOS f p fi h

theorem classifyStep_records_path (f p : String) (s : List String) :
    ∀ r ∈ (classifyStep f p s).1, r.path = p := by
  intro r hr
  simp only [classifyStep] at hr
  split at hr
  · split at hr <;>
    · rcases List.mem_cons.mp hr with rfl | hm
      · exact analyze_filename_path f p _ (by assumption)
      · cases hm
  · cases hr

/-- C6.  Both for a regular `.zip` file on disk and for a non-directory
ZIP-entry at any nesting level, the walker opens it and recurses into its
contents if and only if the name was not itself classified: a classified
name (even one ending `.zip`) contributes its record only; an unclassified
`.zip` is opened and its readable contents are walked at the composed
address (`full_path` on disk, `current ++ ":" ++ internal-path` inside an
archive); an unclassified non-`.zip` contributes nothing; and every record
found underneath an address `p` has an address of the form
`p ++ ":" ++ suffix`, at unbounded nesting depth with nested archives
opened in memory. -/
theorem c6_zip_recursion_guard :
    (∀ ename content rest p s,
      ¬ analyze_filename (baseNameOf ename) (p ++ ":" ++ ename) = none →
      analyze_zip_recursively (.cons ename false content rest) p s =
        ⟨(classifyStep (baseNameOf ename) (p ++ ":" ++ ename) s).1 ++
          (analyze_zip_recursively rest p
            (classifyStep (baseNameOf ename) (p ++ ":" ++ ename) s).2).records,
         (analyze_zip_recursively rest p
            (classifyStep (baseNameOf ename) (p ++ ":" ++ ename) s).2).seen,
         (analyze_zip_recursively rest p
            (classifyStep (baseNameOf ename) (p ++ ":" ++ ename) s).2).warns⟩) ∧
    (∀ ename es rest p s,
      endsWithZip (baseNameOf ename) = true →
      analyze_filename (baseNameOf ename) (p ++ ":" ++ ename) = none →
      analyze_zip_recursively (.cons ename false (Bytes.zip es) rest) p s =
        ⟨(analyze_zip_recursively es (p ++ ":" ++ ename) s).records ++
          (analyze_zip_recursively rest p
            (analyze_zip_recursively es (p ++ ":" ++ ename) s).seen).records,
         (analyze_zip_recursively rest p
            (analyze_zip_recursively es (p ++ ":" ++ ename) s).seen).seen,
         (analyze_zip_recursively es (p ++ ":" ++ ename) s).warns ++
          (analyze_zip_recursively rest p
            (analyze_zip_recursively es (p ++ ":" ++ ename) s).seen).warns⟩) ∧
    (∀ ename content rest p s,
      ¬ endsWithZip (baseNameOf ename) = true →
      analyze_filename (baseNameOf ename) (p ++ ":" ++ ename) = none →
      analyze_zip_recursively (.cons ename false content rest) p s =
        analyze_zip_recursively rest p s) ∧
    (∀ es p s, ∀ r ∈ (analyze_zip_recursively es p s).records,
      ∃ t, r.path = p ++ ":" ++ t) ∧
    (∀ name content rest root s,
      ¬ analyze_filename name (root ++ "/" ++ name) = none →
      walkFilesPass (.cons name (FSNode.file content) rest) root s =
        ⟨(classifyStep name (root ++ "/" ++ name) s).1 ++
          (walkFilesPass rest root
            (classifyStep name (root ++ "/" ++ name) s).2).records,
         (walkFilesPass rest root
            (classifyStep name (root ++ "/" ++ name) s).2).seen,
         (walkFilesPass rest root
            (classifyStep name (root ++ "/" ++ name) s).2).warns⟩) ∧
    (∀ name es rest root s,
      endsWithZip name = true →
      analyze_filename name (root ++ "/" ++ name) = none →
      walkFilesPass (.cons name (FSNode.file (Bytes.zip es)) rest) root s =
        ⟨(analyze_zip_recursively es (root ++ "/" ++ name) s).records ++
          (walkFilesPass rest root
            (analyze_zip_recursively es (root ++ "/" ++ name) s).seen).records,
         (walkFilesPass rest root
            (analyze_zip_recursively es (root ++ "/" ++ name) s).seen).seen,
         (analyze_zip_recursively es (root ++ "/" ++ name) s).warns ++
          (walkFilesPass rest root
            (analyze_zip_recursively es (root ++ "/" ++ name) s).seen).warns⟩) ∧
    (∀ name content rest root s,
      ¬ endsWithZip name = true →
      analyze_filename name (root ++ "/" ++ name) = none →
      walkFilesPass (.cons name (FSNode.file content) rest) root s =
        walkFilesPass rest root s) := by
  refine ⟨?_, ?_, ?_, ?_, ?_, ?_, ?_⟩
  · intro ename content rest p s hfd
    have hcond : ¬ (endsWithZip (baseNameOf ename) = true ∧
        analyze_filename (baseNameOf ename) (p ++ ":" ++ ename) = none) :=
      fun h => hfd h.2
    simp only [analyze_zip_recursively, Bool.false_eq_true, if_false,
      if_neg hcond, List.append_nil, List.nil_append]
  · intro ename es rest p s hz hfd
    have hcond : (endsWithZip (baseNameOf ename) = true ∧
        analyze_filename (baseNameOf ename) (p ++ ":" ++ ename) = none) :=
      ⟨hz, hfd⟩
    have hstep : classifyStep (baseNameOf ename) (p ++ ":" ++ ename) s =
        ([], s) := by
      simp [classifyStep, hfd]
    simp only [analyze_zip_recursively, Bool.false_eq_true, if_false,
      if_pos hcond, hstep, List.nil_append]
  · intro ename content rest p s hz hfd
    have hcond : ¬ (endsWithZip (baseNameOf ename) = true ∧
        analyze_filename (baseNameOf ename) (p ++ ":" ++ ename) = none) :=
      fun h => hz h.1
    have hstep : classifyStep (baseNameOf ename) (p ++ ":" ++ ename) s =
        ([], s) := by
      simp [classifyStep, hfd]
    simp only [analyze_zip_recursively, Bool.false_eq_true, if_false,
      if_neg hcond, hstep, List.nil_append]
  · intro es
    induction es using zentriesInductNested with
    | hnil => intro p s r hr; simp [analyze_zip_recursively] at hr
    | hcons ename isDir content rest ihin ihrest =>
      intro p s r hr
      cases isDir with
      | true =>
        simp only [analyze_zip_recursively, if_true] at hr
        exact ihrest p s r hr
      | false =>
        simp only [analyze_zip_recursively, Bool.false_eq_true, if_false] at hr
        by_cases hcond : (endsWithZip (baseNameOf ename) = true ∧
            analyze_filename (baseNameOf ename) (p ++ ":" ++ ename) = none)
        · rw [if_pos hcond] at hr
          cases content with
          | raw d =>
            simp only [List.mem_append] at hr
            rcases hr with (hstep | hinner) | hr2
            · exact ⟨ename,
                classifyStep_records_path _ (p ++ ":" ++ ename) s r hstep⟩
            · simp at hinner
            · exact ihrest p _ r hr2
          | zip es' =>
            simp only [List.mem_append] at hr
            rcases hr with (hstep | hinner) | hr2
            · exact ⟨ename,
                classifyStep_records_path _ (p ++ ":" ++ ename) s r hstep⟩
            · obtain ⟨t', ht'⟩ := ihin es' rfl (p ++ ":" ++ ename) _ r hinner
              refine ⟨ename ++ ":" ++ t', ?_⟩
              rw [ht']
              simp only [String.append_assoc]
            · exact ihrest p _ r hr2
        · rw [if_neg hcond] at hr
          simp only [List.mem_append] at hr
          rcases hr with (hstep | hinner) | hr2
          · exact ⟨ename,
              classifyStep_records_path _ (p ++ ":" ++ ename) s r hstep⟩
          · simp at hinner
          · exact ihrest p _ r hr2
  · intro name content rest root s hfd
    have hcond : ¬ (endsWithZip name = true ∧
        analyze_filename name (root ++ "/" ++ name) = none) :=
      fun h => hfd h.2
    simp only [walkFilesPass, if_neg hcond, List.append_nil, List.nil_append]
  · intro name es rest root s hz hfd
    have hcond : (endsWithZip name = true ∧
        analyze_filename name (root ++ "/" ++ name) = none) := ⟨hz, hfd⟩
    have hstep : classifyStep name (root ++ "/" ++ name) s = ([], s) := by
      simp [classifyStep, hfd]
    simp only [walkFilesPass, if_pos hcond, hstep, List.nil_append]
  · intro name content rest root s hz hfd
    have hcond : ¬ (endsWithZip name = true ∧
        analyze_filename name (root ++ "/" ++ name) = none) :=
      fun h => hz h.1
    have hstep : classifyStep name (root ++ "/" ++ name) s = ([], s) := by
      simp [classifyStep, hfd]
    simp only [walkFilesPass, if_neg hcond, hstep, List.nil_append]

/-- Witness for C6: a classified `.zip` is not recursed into and an
unclassified `.zip` is walked at the composed address, both for an entry
inside an archive and for a `.zip` file on disk; records from one nesting
level down carry the composed address. -/
theorem c6_zip_recursion_guard_witness :
    analyze_zip_recursively
        (.cons "20123456789_PLAME_20240101.zip" false
          (Bytes.zip (.cons "01-F001-9.xml" false (Bytes.raw [9]) .nil)) .nil)
        "/r/outer.zip" [] =
      ⟨[⟨⟨"reporte_planilla_zip", "20123456789_PLAME_20240101.zip",
          "/r/outer.zip:20123456789_PLAME_20240101.zip",
          [("ruc", "20123456789"), ("periodo", "20240101"), ("ext", "zip")]⟩,
         "UNICO"⟩],
       ["20123456789_PLAME_20240101.zip"], []⟩ ∧
    analyze_zip_recursively
        (.cons "plain.zip" false
          (Bytes.zip (.cons "01-F001-9.xml" false (Bytes.raw [9]) .nil)) .nil)
        "/r/outer.zip" [] =
      ⟨[⟨⟨"factura", "01-F001-9.xml",
          "/r/outer.zip:plain.zip:01-F001-9.xml",
          [("tipo_doc", "01"), ("serie", "F001"), ("correlativo", "9"),
           ("ext", "xml")]⟩,
         "UNICO"⟩],
       ["01-F001-9.xml"], []⟩ ∧
    walkFilesPass
        (.cons "20123456789_PLAME_20240101.zip" (FSNode.file
          (Bytes.zip (.cons "01-F001-9.xml" false (Bytes.raw [9]) .nil))) .nil)
        "/r" [] =
      ⟨[⟨⟨"reporte_planilla_zip", "20123456789_PLAME_20240101.zip",
          "/r/20123456789_PLAME_20240101.zip",
          [("ruc", "20123456789"), ("periodo", "20240101"), ("ext", "zip")]⟩,
         "UNICO"⟩],
       ["20123456789_PLAME_20240101.zip"], []⟩ ∧
    walkFilesPass
        (.cons "plain.zip" (FSNode.file
          (Bytes.zip (.cons "01-F001-9.xml" false (Bytes.raw [9]) .nil))) .nil)
        "/r" [] =
      ⟨[⟨⟨"factura", "01-F001-9.xml", "/r/plain.zip:01-F001-9.xml",
          [("tipo_doc", "01"), ("serie", "F001"), ("correlativo", "9"),
           ("ext", "xml")]⟩, "UNICO"⟩],
       ["01-F001-9.xml"], []⟩ := by
  refine ⟨?_, ?_, ?_, ?_⟩
  · have h := c6_zip_recursion_guard.1 "20123456789_PLAME_20240101.zip"
      (Bytes.zip (.cons "01-F001-9.xml" false (Bytes.raw [9]) .nil)) .nil
      "/r/outer.zip" [] (by decide)
    rw [h]
    decide
  · have h := c6_zip_recursion_guard.2.1 "plain.zip"
      (.cons "01-F001-9.xml" false (Bytes.raw [9]) .nil) .nil
      "/r/outer.zip" [] (by decide) (by decide)
    rw [h]
    decide
  · have h := c6_zip_recursion_guard.2.2.2.2.1 "20123456789_PLAME_20240101.zip"
      (Bytes.zip (.cons "01-F001-9.xml" false (Bytes.raw [9]) .nil)) .nil
      "/r" [] (by decide)
    rw [h]
    decide
  · have h := c6_zip_recursion_guard.2.2.2.2.2.1 "plain.zip"
      (.cons "01-F001-9.xml" false (Bytes.raw [9]) .nil) .nil
      "/r" [] (by decide) (by decide)
    rw [h]
    decide

/-! ### C7: corrupt archives are non-fatal warnings -/

/-- C7.  An unreadable archive at any level is non-fatal: for a nested ZIP
entry whose bytes fail to parse (`BadZipFile`), the walker emits a warning
naming that node, produces no record for it, does not recurse into it, and
continues the sibling traversal with the seen-set unchanged; the same holds
for an unreadable `.zip` file on disk, so every valid record from sibling
and ancestor scopes is still returned. -/
theorem c7_corrupt_archive_warns :
    (∀ ename d rest p s,
      endsWithZip (baseNameOf ename) = true →
      analyze_filename (baseNameOf ename) (p ++ ":" ++ ename) = none →
      analyze_zip_recursively (.cons ename false (Bytes.raw d) rest) p s =
        ⟨(analyze_zip_recursively rest p s).records,
         (analyze_zip_recursively rest p s).seen,
         (p ++ ":" ++ ename) :: (analyze_zip_recursively rest p s).warns⟩) ∧
    (∀ name d rest root s,
      endsWithZip name = true →
      analyze_filename name (root ++ "/" ++ name) = none →
      walkFilesPass (.cons name (FSNode.file (Bytes.raw d)) rest) root s =
        ⟨(walkFilesPass rest root s).records,
         (walkFilesPass rest root s).seen,
         (root ++ "/" ++ name) :: (walkFilesPass rest root s).warns⟩) := by
  constructor
  · intro ename d rest p s hz hfd
    have hcond : (endsWithZip (baseNameOf ename) = true ∧
        analyze_filename (baseNameOf ename) (p ++ ":" ++ ename) = none) :=
      ⟨hz, hfd⟩
    have hstep : classifyStep (baseNameOf ename) (p ++ ":" ++ ename) s =
        ([], s) := by
      simp [classifyStep, hfd]
    simp only [analyze_zip_recursively, Bool.false_eq_true, if_false,
      if_pos hcond, hstep, List.nil_append, List.singleton_append]
  · intro name d rest root s hz hfd
    have hcond : (endsWithZip name = true ∧
        analyze_filename name (root ++ "/" ++ name) = none) := ⟨hz, hfd⟩
    have hstep : classifyStep name (root ++ "/" ++ name) s = ([], s) := by
      simp [classifyStep, hfd]
    simp only [walkFilesPass, if_pos hcond, hstep, List.nil_append,
      List.singleton_append]

/-- Witness for C7: a corrupt nested ZIP alongside a valid sibling, and a
corrupt disk ZIP alongside a valid sibling file. -/
theorem c7_corrupt_archive_warns_witness :
    analyze_zip_recursively
        (.cons "bad.zip" false (Bytes.raw [1])
          (.cons "01-F001-3.xml" false (Bytes.raw [3]) .nil))
        "/r/outer.zip" [] =
      ⟨[⟨⟨"factura", "01-F001-3.xml", "/r/outer.zip:01-F001-3.xml",
          [("tipo_doc", "01"), ("serie", "F001"), ("correlativo", "3"),
           ("ext", "xml")]⟩, "UNICO"⟩],
       ["01-F001-3.xml"], ["/r/outer.zip:bad.zip"]⟩ ∧
    walkFilesPass
        (.cons "bad.zip" (FSNode.file (Bytes.raw [1]))
          (.cons "RHE-E001-5.pdf" (FSNode.file (Bytes.raw [5])) .nil))
        "/r" [] =
      ⟨[⟨⟨"recibo_honorarios", "RHE-E001-5.pdf", "/r/RHE-E001-5.pdf",
          [("tipo_doc", "RHE"), ("serie", "E001"), ("correlativo", "5"),
           ("ext", "pdf")]⟩, "UNICO"⟩],
       ["RHE-E001-5.pdf"], ["/r/bad.zip"]⟩ := by
  constructor
  · have h := c7_corrupt_archive_warns.1 "bad.zip" [1]
      (.cons "01-F001-3.xml" false (Bytes.raw [3]) .nil) "/r/outer.zip" []
      (by decide) (by decide)
    rw [h]
    decide
  · have h := c7_corrupt_archive_warns.2 "bad.zip" [1]
      (.cons "RHE-E001-5.pdf" (FSNode.file (Bytes.raw [5])) .nil) "/r" []
      (by decide) (by decide)
    rw [h]
    decide

/-! ### C3: exactly one UNIQUE per bare filename, in traversal order -/

/-- The bookkeeping invariant of one walker pass: each produced record is
flagged `DUPLICADO` exactly when its bare filename was already seen (in the
incoming seen-set or as an earlier produced record), and `UNICO` otherwise. -/
inductive StatusChain : List String → List FoundRecord → Prop
  | nil (s : List String) : StatusChain s []
  | cons (s : List String) (r : FoundRecord) (rs : List FoundRecord) :
      r.status = (if r.filename ∈ s then "DUPLICADO" else "UNICO") →
      StatusChain (r.filename :: s) rs →
      StatusChain s (r :: rs)

theorem statusChain_congr (s s' : List String) (rs : List FoundRecord)
    (hss : ∀ f, f ∈ s ↔ f ∈ s') (h : StatusChain s rs) :
    StatusChain s' rs := by
  induction h generalizing s' with
  | nil => exact StatusChain.nil s'
  | cons t r rs hst _ ih =>
    refine StatusChain.cons s' r rs ?_ ?_
    · rw [hst, if_congr (hss r.filename).symm rfl rfl]
    · exact ih (r.filename :: s') (by
        intro f
        simp only [List.mem_cons]
        rw [hss f])

theorem statusChain_append (s s' : List String)
    (rs1 rs2 : List FoundRecord)
    (h1 : StatusChain s rs1) (h2 : StatusChain s' rs2)
    (hs' : ∀ f, f ∈ s' ↔ f ∈ rs1.map FoundRecord.filename ∨ f ∈ s) :
    StatusChain s (rs1 ++ rs2) := by
  induction h1 generalizing rs2 with
  | nil =>
    refine statusChain_congr s' _ rs2 ?_ h2
    intro f
    rw [hs' f]
    simp
  | cons t r rs hst _ ih =>
    refine StatusChain.cons t r _ hst ?_
    refine ih rs2 h2 ?_
    intro f
    rw [hs' f]
    simp only [List.map_cons, List.mem_cons]
    tauto

/-- Both components of the walker invariant, for a (records, seen-out) pair
relative to a seen-in list. -/
def PassInv (s : List String) (rs : List FoundRecord)
    (sOut : List String) : Prop :=
  StatusChain s rs ∧
    ∀ g, g ∈ sOut ↔ g ∈ rs.map FoundRecord.filename ∨ g ∈ s

theorem passInv_comp (s : List String)
    (r1 : List FoundRecord) (s1 : List String)
    (r2 : List FoundRecord) (s2 : List String)
    (h1 : PassInv s r1 s1) (h2 : PassInv s1 r2 s2) :
    PassInv s (r1 ++ r2) s2 := by
  refine ⟨statusChain_append s s1 r1 r2 h1.1 h2.1 h1.2, ?_⟩
  intro g
  rw [h2.2 g, h1.2 g]
  simp only [List.map_append, List.mem_append]
  tauto

theorem passInv_refl (s : List String) : PassInv s [] s :=
  ⟨StatusChain.nil s, by intro g; simp⟩

theorem matchFirst_filename (reg : List (String × List Tok × List String))
    (f p : String) (fi : FileInfo) (h : matchFirst reg f p = some fi) :
    fi.filename = f := by
  induction reg with
  | nil => cases h
  | cons e rest ih =>
    obtain ⟨dt, toks, flds⟩ := e
    simp only [matchFirst] at h
    split at h
    · injection h with h'
      rw [← h']
    · exact ih h

theorem analyze_filename_filename (f p : String) (fi : FileInfo)
    (h : analyze_filename f p = some fi) : fi.filename = f :=
  matchFirst_filename PATRONES_ESTRUCTURADOS f p fi h

theorem classifyStep_inv (f p : String) (s : List String) :
    PassInv s (classifyStep f p s).1 (classifyStep f p s).2 := by
  cases hfd : analyze_filename f p with
  | none =>
    simp only [classifyStep, hfd]
    exact passInv_refl s
  | some fi =>
    have hfn : FoundRecord.filename ⟨fi, "DUPLICADO"⟩ = f :=
      analyze_filename_filename f p fi hfd
    have hfn' : FoundRecord.filename ⟨fi, "UNICO"⟩ = f :=
      analyze_filename_filename f p fi hfd
    by_cases hmem : f ∈ s
    · simp only [classifyStep, hfd, if_pos hmem]
      refine ⟨?_, ?_⟩
      · refine StatusChain.cons s _ [] ?_ (StatusChain.nil _)
        rw [hfn, if_pos hmem]
      · intro g
        simp only [List.map_cons, List.map_nil, List.mem_cons,
          List.not_mem_nil, or_false, hfn]
        constructor
        · intro hg
          exact Or.inr hg
        · intro hg
          rcases hg with rfl | hg
          · exact hmem
          · exact hg
    · simp only [classifyStep, hfd, if_neg hmem]
      refine ⟨?_, ?_⟩
      · refine StatusChain.cons s _ [] ?_ (StatusChain.nil _)
        rw [hfn', if_neg hmem]
      · intro g
        simp only [addSeen, if_neg hmem, List.map_cons, List.map_nil,
          List.mem_cons, List.not_mem_nil, or_false, hfn']

theorem analyze_zip_inv (es : ZEntries) :
    ∀ p s, PassInv s (analyze_zip_recursively es p s).records
      (analyze_zip_recursively es p s).seen := by
  induction es using zentriesInductNested with
  | hnil =>
    intro p s
    simp only [analyze_zip_recursively]
    exact passInv_refl s
  | hcons name isDir content rest ihin ihrest =>
    intro p s
    cases isDir with
    | true =>
      simp only [analyze_zip_recursively, if_true]
      exact ihrest p s
    | false =>
      by_cases hcond : (endsWithZip (baseNameOf name) = true ∧
          analyze_filename (baseNameOf name) (p ++ ":" ++ name) = none)
      · cases content with
        | zip es' =>
          simp only [analyze_zip_recursively, Bool.false_eq_true, if_false,
            if_pos hcond]
          exact passInv_comp s _ _ _ _
            (passInv_comp s _ _ _ _
              (classifyStep_inv (baseNameOf name) (p ++ ":" ++ name) s)
              (ihin es' rfl (p ++ ":" ++ name) _))
            (ihrest p _)
        | raw d =>
          simp only [analyze_zip_recursively, Bool.false_eq_true, if_false,
            if_pos hcond]
          exact passInv_comp s _ _ _ _
            (passInv_comp s _ _ _ _
              (classifyStep_inv (baseNameOf name) (p ++ ":" ++ name) s)
              (passInv_refl _))
            (ihrest p _)
      · simp only [analyze_zip_recursively, Bool.false_eq_true, if_false,
          if_neg hcond]
        exact passInv_comp s _ _ _ _
          (passInv_comp s _ _ _ _
            (classifyStep_inv (baseNameOf name) (p ++ ":" ++ name) s)
            (passInv_refl _))
          (ihrest p _)

theorem walkFilesPass_inv (es : FSEntries) :
    ∀ root s, PassInv s (walkFilesPass es root s).records
      (walkFilesPass es root s).seen := by
  induction es using fsentriesInductNested with
  | hnil =>
    intro root s
    simp only [walkFilesPass]
    exact passInv_refl s
  | hcons name node rest ihdir ihrest =>
    intro root s
    cases node with
    | dir es' =>
      simp only [walkFilesPass]
      exact ihrest root s
    | file content =>
      by_cases hcond : (endsWithZip name = true ∧
          analyze_filename name (root ++ "/" ++ name) = none)
      · cases content with
        | zip es' =>
          simp only [walkFilesPass, if_pos hcond]
          exact passInv_comp s _ _ _ _
            (passInv_comp s _ _ _ _
              (classifyStep_inv name (root ++ "/" ++ name) s)
              (analyze_zip_inv es' (root ++ "/" ++ name) _))
            (ihrest root _)
        | raw d =>
          simp only [walkFilesPass, if_pos hcond]
          exact passInv_comp s _ _ _ _
            (passInv_comp s _ _ _ _
              (classifyStep_inv name (root ++ "/" ++ name) s)
              (passInv_refl _))
            (ihrest root _)
      · simp only [walkFilesPass, if_neg hcond]
        exact passInv_comp s _ _ _ _
          (passInv_comp s _ _ _ _
            (classifyStep_inv name (root ++ "/" ++ name) s)
            (passInv_refl _))
          (ihrest root _)

theorem walkDirsPass_inv (es : FSEntries) :
    ∀ root s, PassInv s (walkDirsPass es root s).records
      (walkDirsPass es root s).seen := by
  induction es using fsentriesInductNested with
  | hnil =>
    intro root s
    simp only [walkDirsPass]
    exact passInv_refl s
  | hcons name node rest ihdir ihrest =>
    intro root s
    cases node with
    | file content =>
      simp only [walkDirsPass]
      exact ihrest root s
    | dir es' =>
      simp only [walkDirsPass]
      exact passInv_comp s _ _ _ _
        (passInv_comp s _ _ _ _
          (walkFilesPass_inv es' (root ++ "/" ++ name) s)
          (ihdir es' rfl (root ++ "/" ++ name) _))
        (ihrest root _)

theorem walkDir_inv (es : FSEntries) (root : String) (s : List String) :
    PassInv s (walkDir es root s).records (walkDir es root s).seen := by
  simp only [walkDir]
  exact passInv_comp s _ _ _ _
    (walkFilesPass_inv es root s)
    (walkDirsPass_inv es root _)

theorem find_files_chain (sp : String) (node : Option FSNode) :
    StatusChain [] (find_files sp node) := by
  match node with
  | some (FSNode.dir entries) => exact (walkDir_inv entries sp []).1
  | some (FSNode.file _) => exact StatusChain.nil []
  | none => exact StatusChain.nil []

theorem statusChain_get (s : List String) (rs : List FoundRecord)
    (h : StatusChain s rs) :
    ∀ i (hi : i < rs.length),
      ((rs.get ⟨i, hi⟩).status = "DUPLICADO" ↔
        ((rs.get ⟨i, hi⟩).filename ∈ s ∨
          ∃ j, ∃ (hj : j < rs.length), j < i ∧
            (rs.get ⟨j, hj⟩).filename = (rs.get ⟨i, hi⟩).filename)) ∧
      ((rs.get ⟨i, hi⟩).status = "UNICO" ↔
        ¬ ((rs.get ⟨i, hi⟩).filename ∈ s ∨
          ∃ j, ∃ (hj : j < rs.length), j < i ∧
            (rs.get ⟨j, hj⟩).filename = (rs.get ⟨i, hi⟩).filename)) := by
  induction h with
  | nil => intro i hi; exact absurd hi (by simp)
  | cons t r rs hst htail ih =>
    intro i hi
    match i with
    | 0 =>
      have hC : (((r :: rs).get ⟨0, hi⟩).filename ∈ t ∨
          ∃ j, ∃ (hj : j < (r :: rs).length), j < 0 ∧
            ((r :: rs).get ⟨j, hj⟩).filename =
              ((r :: rs).get ⟨0, hi⟩).filename) ↔ r.filename ∈ t := by
        simp only [List.get]
        constructor
        · rintro (hmem | ⟨j, hj, hji, _⟩)
          · exact hmem
          · omega
        · exact Or.inl
      rw [hC]
      simp only [List.get]
      rw [hst]
      by_cases hmem : r.filename ∈ t
      · rw [if_pos hmem]
        exact ⟨⟨fun _ => hmem, fun _ => rfl⟩,
          ⟨fun hU => absurd hU (by decide), fun hn => absurd hmem hn⟩⟩
      · rw [if_neg hmem]
        exact ⟨⟨fun hD => absurd hD (by decide), fun hC => absurd hC hmem⟩,
          ⟨fun _ => hmem, fun _ => rfl⟩⟩
    | i' + 1 =>
      have hi' : i' < rs.length := Nat.lt_of_succ_lt_succ hi
      have hC : (((r :: rs).get ⟨i' + 1, hi⟩).filename ∈ t ∨
          ∃ j, ∃ (hj : j < (r :: rs).length), j < i' + 1 ∧
            ((r :: rs).get ⟨j, hj⟩).filename =
              ((r :: rs).get ⟨i' + 1, hi⟩).filename) ↔
          ((rs.get ⟨i', hi'⟩).filename ∈ (r.filename :: t) ∨
          ∃ j, ∃ (hj : j < rs.length), j < i' ∧
            (rs.get ⟨j, hj⟩).filename = (rs.get ⟨i', hi'⟩).filename) := by
        simp only [List.get]
        constructor
        · rintro (hmem | ⟨j, hj, hji, hfn⟩)
          · exact Or.inl (List.mem_cons_of_mem _ hmem)
          · match j with
            | 0 => exact Or.inl (List.mem_cons.mpr (Or.inl hfn.symm))
            | j' + 1 =>
              exact Or.inr ⟨j', Nat.lt_of_succ_lt_succ hj,
                Nat.lt_of_succ_lt_succ hji, hfn⟩
        · rintro (hmem | ⟨j, hj, hji, hfn⟩)
          · rcases List.mem_cons.mp hmem with heq | hmem'
            · exact Or.inr ⟨0, Nat.succ_pos _, Nat.succ_pos _, heq.symm⟩
            · exact Or.inl hmem'
          · exact Or.inr ⟨j + 1, Nat.succ_lt_succ hj,
              Nat.succ_lt_succ hji, hfn⟩
      rw [hC]
      simp only [List.get]
      exact ih i' hi'

/-- C3.  In one discovery run, among the records sharing a bare filename
the first one visited is flagged `UNICO` and every later one `DUPLICADO`,
regardless of directory or archive nesting; a record is `UNICO` exactly
when no earlier record has its bare filename; and the final seen-set holds
exactly the bare filenames of the classified records, so names that fail
classification never enter it and never influence later decisions. -/
theorem c3_unique_per_filename :
    (∀ (sp : String) (node : Option FSNode) i j
      (hi : i < (find_files sp node).length)
      (hj : j < (find_files sp node).length),
      i < j →
      ((find_files sp node).get ⟨i, hi⟩).filename =
        ((find_files sp node).get ⟨j, hj⟩).filename →
      ((find_files sp node).get ⟨j, hj⟩).status = "DUPLICADO") ∧
    (∀ (sp : String) (node : Option FSNode) i
      (hi : i < (find_files sp node).length),
      ((find_files sp node).get ⟨i, hi⟩).status = "UNICO" ↔
      ∀ j (hj : j < (find_files sp node).length), j < i →
        ¬ ((find_files sp node).get ⟨j, hj⟩).filename =
          ((find_files sp node).get ⟨i, hi⟩).filename) ∧
    (∀ (sp : String) (es : FSEntries) (g : String),
      g ∈ (walkDir es sp []).seen ↔
        g ∈ (walkDir es sp []).records.map FoundRecord.filename) := by
  refine ⟨?_, ?_, ?_⟩
  · intro sp node i j hi hj hij hfn
    exact (statusChain_get [] _ (find_files_chain sp node) j hj).1.mpr
      (Or.inr ⟨i, hi, hij, hfn⟩)
  · intro sp node i hi
    rw [(statusChain_get [] _ (find_files_chain sp node) i hi).2]
    constructor
    · intro hnC j hj hji hfn
      exact hnC (Or.inr ⟨j, hj, hji, hfn⟩)
    · intro hall
      rintro (hmem | ⟨j, hj, hji, hfn⟩)
      · cases hmem
      · exact hall j hj hji hfn
  · intro sp es g
    have := (walkDir_inv es sp []).2 g
    simpa using this

/-- Witness for C3: two identically named files in different directories —
the first visited is `UNICO`, the second `DUPLICADO`. -/
theorem c3_unique_per_filename_witness :
    (((find_files "/r" (some (FSNode.dir
      (.cons "a" (FSNode.dir (.cons "20123456789-09-T001-1.pdf"
          (FSNode.file (Bytes.raw [0])) .nil))
        (.cons "b" (FSNode.dir (.cons "20123456789-09-T001-1.pdf"
          (FSNode.file (Bytes.raw [1])) .nil)) .nil))))).get
      ⟨1, by decide⟩).status = "DUPLICADO") ∧
    (((find_files "/r" (some (FSNode.dir
      (.cons "a" (FSNode.dir (.cons "20123456789-09-T001-1.pdf"
          (FSNode.file (Bytes.raw [0])) .nil))
        (.cons "b" (FSNode.dir (.cons "20123456789-09-T001-1.pdf"
          (FSNode.file (Bytes.raw [1])) .nil)) .nil))))).get
      ⟨0, by decide⟩).status = "UNICO") := by
  constructor
  · exact c3_unique_per_filename.1 "/r" (some (FSNode.dir
      (.cons "a" (FSNode.dir (.cons "20123456789-09-T001-1.pdf"
          (FSNode.file (Bytes.raw [0])) .nil))
        (.cons "b" (FSNode.dir (.cons "20123456789-09-T001-1.pdf"
          (FSNode.file (Bytes.raw [1])) .nil)) .nil))))
      0 1 (by decide) (by decide) (by decide) (by decide)
  · exact (c3_unique_per_filename.2.1 "/r" (some (FSNode.dir
      (.cons "a" (FSNode.dir (.cons "20123456789-09-T001-1.pdf"
          (FSNode.file (Bytes.raw [0])) .nil))
        (.cons "b" (FSNode.dir (.cons "20123456789-09-T001-1.pdf"
          (FSNode.file (Bytes.raw [1])) .nil)) .nil))))
      0 (by decide)).mpr (fun j hj hji => absurd hji (by omega))

def c4Node : FSNode :=
  FSNode.dir
    (.cons "a" (FSNode.dir (.cons "20123456789-09-T001-1.pdf"
        (FSNode.file (Bytes.raw [0])) .nil))
      (.cons "b" (FSNode.dir (.cons "20123456789-09-T001-1.pdf"
        (FSNode.file (Bytes.raw [1])) .nil)) .nil))

def c4Fs : List (String × Bytes) :=
  [("/r/a/20123456789-09-T001-1.pdf", Bytes.raw [0]),
   ("/r/b/20123456789-09-T001-1.pdf", Bytes.raw [1])]

/-- The side-effect trace of a completed `/process` call. -/
def resultTrace : ProcessResult → List Event
  | .done pkg _ _ => pkg.trace
  | _ => []

/-- The filesystem left behind by a completed `/process` call. -/
def resultFsAfter : ProcessResult → List (String × Bytes)
  | .done pkg _ _ => pkg.fsAfter
  | _ => []

/-- C4 counterexample: with two identically named files in directories `a`
and `b`, only the `a` record (the `UNICO` one) is packaged, yet requesting
deletion removes the `b` file as well — a physical base file referenced by
no packaged record is deleted, refuting the claim as stated. -/
theorem c4_counterexample_duplicate_base_deleted :
    Event.removeFile "/r/b/20123456789-09-T001-1.pdf" ∈
      resultTrace (process_endpoint "/r" "/out" true (some c4Node)
        (some (FSNode.dir .nil)) c4Fs "consolidado_1.zip" true) ∧
    fsLookup (resultFsAfter (process_endpoint "/r" "/out" true (some c4Node)
        (some (FSNode.dir .nil)) c4Fs "consolidado_1.zip" true))
      "/r/b/20123456789-09-T001-1.pdf" = none ∧
    fsLookup c4Fs "/r/b/20123456789-09-T001-1.pdf" = some (Bytes.raw [1]) ∧
    (∀ r ∈ (preparePackaging (find_files "/r" (some c4Node))).1,
      ¬ baseOf r = "/r/b/20123456789-09-T001-1.pdf") := by
  refine ⟨by decide, by decide, by decide, by decide⟩

theorem preparePackaging_bases (allFound : List FoundRecord) :
    ∀ acc p, p ∈ allFound.foldl
        (fun acc r => if baseOf r ∈ acc then acc else acc ++ [baseOf r]) acc ↔
      p ∈ acc ∨ ∃ r ∈ allFound, baseOf r = p := by
  induction allFound with
  | nil => intro acc p; simp
  | cons r rs ih =>
    intro acc p
    simp only [List.foldl_cons]
    by_cases hb : baseOf r ∈ acc
    · rw [if_pos hb, ih acc p]
      constructor
      · rintro (hacc | ⟨r', hr', hbp⟩)
        · exact Or.inl hacc
        · exact Or.inr ⟨r', List.mem_cons_of_mem _ hr', hbp⟩
      · rintro (hacc | ⟨r', hr', hbp⟩)
        · exact Or.inl hacc
        · rcases List.mem_cons.mp hr' with rfl | hm
          · exact Or.inl (hbp ▸ hb)
          · exact Or.inr ⟨r', hm, hbp⟩
    · rw [if_neg hb, ih (acc ++ [baseOf r]) p]
      simp only [List.mem_append, List.mem_singleton]
      constructor
      · rintro ((hacc | hbp) | ⟨r', hr', hbp⟩)
        · exact Or.inl hacc
        · exact Or.inr ⟨r, List.mem_cons_self _ _, hbp.symm⟩
        · exact Or.inr ⟨r', List.mem_cons_of_mem _ hr', hbp⟩
      · rintro (hacc | ⟨r', hr', hbp⟩)
        · exact Or.inl (Or.inl hacc)
        · rcases List.mem_cons.mp hr' with rfl | hm
          · exact Or.inl (Or.inr hbp.symm)
          · exact Or.inr ⟨r', hm, hbp⟩

theorem runDeletions_mem (ts : List String) :
    ∀ fs p, Event.removeFile p ∈ (runDeletions fs ts).2 → p ∈ ts := by
  induction ts with
  | nil => intro fs p h; simp [runDeletions] at h
  | cons q qs ih =>
    intro fs p h
    simp only [runDeletions, List.mem_cons] at h
    rcases h with heq | hm
    · injection heq with h'
      exact List.mem_cons.mpr (Or.inl h')
    · exact List.mem_cons_of_mem _ (ih _ p hm)

/-- C4 amended: the deletion set collected by `process_endpoint` consists of
the base physical paths of ALL found records — duplicates included, so the
base file of an unpackaged `DUPLICADO` record is deleted too — and every
path passed to `os.remove` is the base path of some found record; in
particular the output archive is never deleted as long as its freshly
timestamped path differs from every found record's base path. -/
theorem c4_deletion_set_amended :
    (∀ (allFound : List FoundRecord) (p : String),
      p ∈ (preparePackaging allFound).2 ↔ ∃ r ∈ allFound, baseOf r = p) ∧
    (∀ (sp od : String) (sn odn : Option FSNode)
      (fs : List (String × Bytes)) (zf : String) (pkg : PkgResult)
      (outPath : String) (cnt : Nat),
      process_endpoint sp od true sn odn fs zf true = .done pkg outPath cnt →
      ∀ p, Event.removeFile p ∈ pkg.trace →
        (∃ r ∈ find_files sp sn, baseOf r = p) ∧
        ((∀ r ∈ find_files sp sn, ¬ baseOf r = od ++ "/" ++ zf) →
          ¬ p = od ++ "/" ++ zf)) := by
  constructor
  · intro allFound p
    have h := preparePackaging_bases allFound [] p
    simpa using h
  · intro sp od sn odn fs zf pkg outPath cnt hdone p hp
    simp only [process_endpoint] at hdone
    split at hdone
    · cases hdone
    · split at hdone
      · cases hdone
      · split at hdone
        · cases hdone
        · split at hdone
          · cases hdone
          · split at hdone
            case _ pkg' heq =>
              injection hdone with h1 h2 h3
              subst h1
              simp only [create_zip_package, if_true, Except.ok.injEq] at heq
              subst heq
              simp only [List.mem_append] at hp
              rcases hp with hw | hd
              · obtain ⟨a, _, ha⟩ := List.mem_map.mp hw
                cases ha
              · have hmem := runDeletions_mem _ _ p hd
                simp only [if_pos rfl] at hmem
                have hbase := (preparePackaging_bases
                  (find_files sp sn) [] p).mp hmem
                rcases hbase with h0 | hbase
                · cases h0
                · refine ⟨hbase, ?_⟩
                  intro hfresh hpq
                  obtain ⟨r, hr, hb⟩ := hbase
                  exact hfresh r hr (hpq ▸ hb)
            case _ heq => cases hdone

/-- Witness for the amended C4 at the concrete two-directory instance: the
deleted duplicate base is the base of a found (though unpackaged) record,
and it is not the output archive path. -/
theorem c4_deletion_set_amended_witness :
    (∃ r ∈ find_files "/r" (some c4Node),
      baseOf r = "/r/b/20123456789-09-T001-1.pdf") ∧
    ¬ ("/r/b/20123456789-09-T001-1.pdf" : String) = "/out/consolidado_1.zip" := by
  have h := c4_deletion_set_amended.2 "/r" "/out" (some c4Node)
    (some (FSNode.dir .nil)) c4Fs "consolidado_1.zip"
    ⟨[("20123456789-09-T001-1.pdf", Bytes.raw [0])],
     [("/out/consolidado_1.zip",
       Bytes.zip (.cons "20123456789-09-T001-1.pdf" false (Bytes.raw [0]) .nil))],
     [Event.writeEntry "20123456789-09-T001-1.pdf",
      Event.removeFile "/r/a/20123456789-09-T001-1.pdf",
      Event.removeFile "/r/b/20123456789-09-T001-1.pdf"]⟩
    "/out/consolidado_1.zip" 1 rfl "/r/b/20123456789-09-T001-1.pdf" (by decide)
  exact ⟨h.1, h.2 (by decide)⟩
